import Mathlib

/-!
A verification development for the single-file FAT-style virtual disk
implemented in `VirtualFileSystem.h` / `VirtualFileSystem.cpp`.

The embedding models the in-memory state of a `VirtualFileSystem` object
(superblock geometry, directory table, allocation table) together with the
contents of the data blocks of the backing file and the persisted copies of
the directory and FAT regions.  Machine integers are modelled as `Nat`/`Int`;
the only place where 32-bit wrap-around can actually occur (the size rounding
in `createDisk`) takes an explicit `% 2^32`.  Host-side I/O is modelled by
passing the relevant bytes directly: a host file is `Option (List Nat)`
(`none` = unreadable), an exported file is the returned byte list.

Indexing conventions: C++ `std::vector::operator[]` out-of-range accesses are
undefined behaviour; the embedding uses `List.getD` / `List.set` (reads give a
default, out-of-range writes are dropped) and each such spot is marked with a
comment.  All reachable states only perform in-range accesses.
-/

/-! ### Constants (`VirtualFileSystem.h`, `VirtualFileSystem.cpp`) -/

def MAX_FILES : Nat := 64

def BLOCK_SIZE : Nat := 512

def DEFAULT_DISK_SIZE : Nat := 10 * 1024 * 1024

/-- The bytes of `static constexpr char FS_NAME[8] = "TTvfs01"`:
`'T','T','v','f','s','0','1','\0'`. -/
def FS_NAME : List Nat := [84, 84, 118, 102, 115, 48, 49, 0]

def FAT_FREE : Int := 0

def FAT_EOF : Int := -1

def FAT_RESERVED : Int := -2

/-- `sizeof(DirEntry)` under `#pragma pack(1)` on the 64-bit target platform:
`char name[32]` + `uint64_t size` + `time_t created` (8 bytes) + `char type`
+ `uint32_t firstBlock` = 32 + 8 + 8 + 1 + 4. -/
def DIR_ENTRY_SIZE : Nat := 53

/-! ### Data model -/

/-- A directory entry.  The stored name is the C string in `char name[32]`:
`strncpy` copies at most 31 bytes of the (NUL-free) host base name and the
entry was zeroed beforehand, so the stored name is `fname.take 31`.  An entry
is free iff `name[0] == '\0'`, i.e. iff `name = []`. -/
structure DirEntry where
  name : List Nat
  size : Nat
  created : Int
  type : Nat
  firstBlock : Nat
deriving DecidableEq

def emptyEntry : DirEntry := ⟨[], 0, 0, 0, 0⟩

instance : Inhabited DirEntry := ⟨emptyEntry⟩

/-- The superblock (`struct SuperBlock`). -/
structure SuperBlock where
  fsName : List Nat
  blockSize : Nat
  totalBlocks : Nat
  totalDirEntries : Nat
  dirStartBlock : Nat
  dirBlockCount : Nat
  fatStartBlock : Nat
  fatBlockCount : Nat
  dataStartBlock : Nat
deriving DecidableEq

/-- The full state of an opened volume: the in-memory superblock, directory
and FAT, the persisted directory/FAT regions of the backing file, and the
contents of each data block of the backing file (512 bytes per block). -/
structure VFS where
  sb : SuperBlock
  directory : List DirEntry
  fat : List Int
  diskDirectory : List DirEntry
  diskFat : List Int
  data : Nat → List Nat

/-! ### Geometry computation (`createDisk`, lines 33-76) -/

/-- The size adjustment at the top of `createDisk`: a zero size is replaced by
the default, then the size is rounded up to a multiple of `BLOCK_SIZE`.  The
rounding multiplication is `uint32` arithmetic, hence the `% 2^32`. -/
def roundDiskSize (diskSize : Nat) : Nat :=
  let d := if diskSize = 0 then DEFAULT_DISK_SIZE else diskSize
  if d % BLOCK_SIZE ≠ 0 then ((d / BLOCK_SIZE + 1) * BLOCK_SIZE) % 2 ^ 32 else d

/-- The superblock produced by `createDisk` for a requested size. -/
def mkSuperBlock (diskSize : Nat) : SuperBlock :=
  let sz := roundDiskSize diskSize
  let totalBlocks := sz / BLOCK_SIZE
  let dirBytes := MAX_FILES * DIR_ENTRY_SIZE
  let dirBlockCount := (dirBytes + BLOCK_SIZE - 1) / BLOCK_SIZE
  let fatStartBlock := 1 + dirBlockCount
  let fatBytes := totalBlocks * 4
  let fatBlockCount := (fatBytes + BLOCK_SIZE - 1) / BLOCK_SIZE
  { fsName := FS_NAME
    blockSize := BLOCK_SIZE
    totalBlocks := totalBlocks
    totalDirEntries := MAX_FILES
    dirStartBlock := 1
    dirBlockCount := dirBlockCount
    fatStartBlock := fatStartBlock
    fatBlockCount := fatBlockCount
    dataStartBlock := fatStartBlock + fatBlockCount }

/-- The loop `for (i = 0; i < sb.dataStartBlock; i++) FAT[i] = FAT_RESERVED;`.
When `dataStartBlock > totalBlocks` (tiny disks) the C++ writes out of range
(undefined behaviour); `List.set` drops those writes. -/
def reserveMeta (fat : List Int) (n : Nat) : List Int :=
  (List.range n).foldl (fun f i => f.set i FAT_RESERVED) fat

/-- `createDisk` (lines 33-98).  Host-file creation failures are not modelled;
the freshly created backing file is all zero bytes. -/
def createDisk (diskSize : Nat) : VFS :=
  let sb := mkSuperBlock diskSize
  let dir := List.replicate MAX_FILES emptyEntry
  let fat := reserveMeta (List.replicate sb.totalBlocks FAT_FREE) sb.dataStartBlock
  { sb := sb
    directory := dir
    fat := fat
    diskDirectory := dir
    diskFat := fat
    data := fun _ => List.replicate BLOCK_SIZE 0 }

/-! ### Superblock validation (`readSuperblock`, lines 118-126) -/

/-- C `strlen` on a byte list. -/
def cstrlen : List Nat → Nat
  | [] => 0
  | b :: rest => if b = 0 then 0 else cstrlen rest + 1

/-- C `strncmp` on byte lists (compares at most `n` characters, stops at a
matching NUL).  Both arguments come from `char[8]` arrays and `n ≤ 8`, so the
empty-list cases are never reached. -/
def strncmp : List Nat → List Nat → Nat → Int
  | _, _, 0 => 0
  | [], _, _ + 1 => 0
  | _ :: _, [], _ + 1 => 0
  | a :: as, b :: bs, n + 1 =>
    if a ≠ b then (a : Int) - (b : Int)
    else if a = 0 then 0 else strncmp as bs n

/-- The magic check in `readSuperblock`:
`strncmp(sb.fsName, FS_NAME, strlen(FS_NAME)) == 0`, where `stored` is the
8-byte `fsName` field read from block 0.  `loadDisk` fails with the corruption
error exactly when this returns `false`. -/
def superblockMagicOk (stored : List Nat) : Bool :=
  strncmp stored FS_NAME (cstrlen FS_NAME) == 0

/-! ### Directory scans -/

/-- `findDirectoryEntry` (lines 194-201): first index whose entry is active
(`name[0] != '\0'`) and whose stored name equals `name`. -/
def findEntryIdx (nm : List Nat) : List DirEntry → Option Nat
  | [] => none
  | e :: rest =>
    if e.name ≠ [] ∧ nm = e.name then some 0
    else (findEntryIdx nm rest).map (· + 1)

def findDirectoryEntry (dir : List DirEntry) (nm : List Nat) : Option Nat :=
  findEntryIdx nm dir

/-- The free-slot scan in `copyFromHost` (lines 215-221): first index with
`name[0] == '\0'`. -/
def findSlotIdx : List DirEntry → Option Nat
  | [] => none
  | e :: rest =>
    if e.name = [] then some 0
    else (findSlotIdx rest).map (· + 1)

def findFreeSlot (dir : List DirEntry) : Option Nat :=
  findSlotIdx dir

/-! ### Free-block discovery (`findFreeBlocks`, lines 183-191) -/

/-- All data-region block indices whose FAT entry is `FAT_FREE`, in ascending
order (the scan runs `i` from `sb.dataStartBlock` to `totalBlocks - 1`;
`FAT.size() == totalBlocks` in every state the code constructs). -/
def freeBlockScan (fat : List Int) (dataStart : Nat) : List Nat :=
  ((List.range fat.length).drop dataStart).filter fun i => fat.getD i 0 == FAT_FREE

/-- `findFreeBlocks`: the first `count` free data blocks; the call succeeds
iff the returned list has length `count`. -/
def findFreeBlocks (fat : List Int) (dataStart count : Nat) : List Nat :=
  (freeBlockScan fat dataStart).take count

/-! ### FAT chain construction / destruction -/

/-- The FAT update loop of `copyFromHost` (lines 260-267): every allocated
block points at its successor, the last gets `FAT_EOF`. -/
def linkChain (fat : List Int) : List Nat → List Int
  | [] => fat
  | [b] => fat.set b FAT_EOF
  | b :: b' :: rest => linkChain (fat.set b (b' : Int)) (b' :: rest)

/-- The chain-freeing loop of `deleteFile` (lines 339-344):
`while (blk != FAT_EOF && blk != FAT_RESERVED) { next = FAT[blk];
FAT[blk] = FAT_FREE; blk = next; }`, with explicit fuel (the C++ loop is
unbounded; on every state the program builds it terminates within the chain
length).  A negative or out-of-range `blk` other than the two markers indexes
the vector out of range in C++ (undefined behaviour); modelled as stopping. -/
def freeChain (fat : List Int) (blk : Int) : Nat → List Int
  | 0 => fat
  | fuel + 1 =>
    if blk = FAT_EOF ∨ blk = FAT_RESERVED then fat
    else if 0 ≤ blk ∧ blk.toNat < fat.length then
      freeChain (fat.set blk.toNat FAT_FREE) (fat.getD blk.toNat 0) fuel
    else fat

/-- Following successor pointers from `blk` (the walk used by `showMap`,
lines 397-404, and the notion of "chain" of a directory entry): collect block
indices until a negative value (`FAT_EOF` / `FAT_RESERVED`) is reached, with
fuel.  Out-of-range reads (undefined behaviour in C++) yield the default
`FAT_EOF` and stop the walk. -/
def chainList (fat : List Int) (blk : Int) : Nat → List Nat
  | 0 => []
  | fuel + 1 =>
    if blk < 0 then []
    else blk.toNat :: chainList fat (fat.getD blk.toNat FAT_EOF) fuel

/-! ### Data-block writes (`copyFromHost` write loop, lines 269-284) -/

/-- One block's on-disk content: the chunk, zero-padded to `BLOCK_SIZE`. -/
def padBlock (chunk : List Nat) : List Nat :=
  chunk ++ List.replicate (BLOCK_SIZE - chunk.length) 0

/-- The data write loop: block `i` of the allocation receives bytes
`[i*512, min((i+1)*512, L))` of the host file, zero-padded. -/
def writeData (store : Nat → List Nat) : List Nat → List Nat → Nat → List Nat
  | [], _ => store
  | b :: bs, bytes => writeData (Function.update store b (padBlock (bytes.take BLOCK_SIZE))) bs (bytes.drop BLOCK_SIZE)

/-! ### The operations -/

/-- The failure modes of `copyFromHost`, in the order the code checks them
(each corresponds to one `cerr` message, lines 210-248). -/
inductive VfsError where
  | nameExists
  | dirFull
  | cantOpen
  | emptyHost
  | noSpace
deriving DecidableEq

/-- `copyFromHost` (lines 204-293).  `fname` is the base name after stripping
the path prefix (line 206-207); `hostData` is the host file's content, `none`
when the file cannot be opened.  `blocksNeeded` is truncated through
`static_cast<uint32_t>` (line 242), hence the `% 2^32`.  On success the
directory and FAT are updated in memory, the data blocks are written, and
both tables are persisted.  When the truncated count is zero (a host file
whose size is a positive multiple of `2^32 * BLOCK_SIZE`), the source reads
`blocks[0]` from an empty vector (line 257) — undefined behaviour; the model
uses `headD 0`. -/
def copyFromHost (s : VFS) (fname : List Nat) (hostData : Option (List Nat)) (now : Int) :
    VFS × Option VfsError :=
  if (findDirectoryEntry s.directory fname).isSome then (s, some .nameExists)
  else
    match findFreeSlot s.directory with
    | none => (s, some .dirFull)
    | some freeSlot =>
      match hostData with
      | none => (s, some .cantOpen)
      | some bytes =>
        if bytes.length = 0 then (s, some .emptyHost)
        else
          let blocksNeeded := ((bytes.length + BLOCK_SIZE - 1) / BLOCK_SIZE) % 2 ^ 32
          let blocks := findFreeBlocks s.fat s.sb.dataStartBlock blocksNeeded
          if blocks.length ≠ blocksNeeded then (s, some .noSpace)
          else
            let entry : DirEntry :=
              { name := fname.take 31
                size := bytes.length
                created := now
                type := 70
                firstBlock := blocks.headD 0 }
            let dir' := s.directory.set freeSlot entry
            let fat' := linkChain s.fat blocks
            let dat' := writeData s.data blocks bytes
            ({ sb := s.sb, directory := dir', fat := fat',
               diskDirectory := dir', diskFat := fat', data := dat' }, none)

/-- The export loop of `copyToHost` (lines 313-323), with fuel: while
`blk != FAT_EOF && remaining > 0`, read `min(BLOCK_SIZE, remaining)` bytes of
block `blk`, then `blk = (blk < 0 ? FAT_EOF : FAT[blk])`.  Each iteration
consumes at least one byte of `remaining`, so fuel `remaining` is always
enough (see the termination theorem below).  A negative non-`EOF` `blk` makes
the C++ `seekg` fail and write stale buffer bytes; reachable states never hit
that case. -/
def exportLoop (fat : List Int) (store : Nat → List Nat) : Int → Nat → Nat → List Nat
  | _, _, 0 => []
  | blk, remaining, fuel + 1 =>
    if blk = FAT_EOF ∨ remaining = 0 then []
    else
      let toRead := min BLOCK_SIZE remaining
      let chunk := (store blk.toNat).take toRead
      let next := if blk < 0 then FAT_EOF else fat.getD blk.toNat FAT_EOF
      chunk ++ exportLoop fat store next (remaining - toRead) fuel

/-- The number of iterations the export loop performs (same guards as
`exportLoop`). -/
def exportLoopIters (fat : List Int) : Int → Nat → Nat → Nat
  | _, _, 0 => 0
  | blk, remaining, fuel + 1 =>
    if blk = FAT_EOF ∨ remaining = 0 then 0
    else
      let toRead := min BLOCK_SIZE remaining
      let next := if blk < 0 then FAT_EOF else fat.getD blk.toNat FAT_EOF
      exportLoopIters fat next (remaining - toRead) fuel + 1

/-- `copyToHost` (lines 296-328): look the name up, then follow the chain
writing `min(BLOCK_SIZE, remaining)` bytes per visited block.  Returns the
bytes written to the host destination (`none` when the name is not found). -/
def copyToHost (s : VFS) (fileName : List Nat) : Option (List Nat) :=
  match findDirectoryEntry s.directory fileName with
  | none => none
  | some idx =>
    let entry := s.directory.getD idx default
    some (exportLoop s.fat s.data (entry.firstBlock : Int) entry.size entry.size)

/-- `deleteFile` (lines 331-354): free the chain, clear `name`, `size` and
`firstBlock` (`created` and `type` are left as they were), persist both
tables.  The freeing loop gets fuel `FAT.length`, which suffices for every
state the program builds. -/
def deleteFile (s : VFS) (fileName : List Nat) : VFS × Bool :=
  match findDirectoryEntry s.directory fileName with
  | none => (s, false)
  | some idx =>
    let entry := s.directory.getD idx default
    let fat' := freeChain s.fat (entry.firstBlock : Int) s.fat.length
    let dir' := s.directory.set idx { entry with name := [], size := 0, firstBlock := 0 }
    ({ sb := s.sb, directory := dir', fat := fat',
       diskDirectory := dir', diskFat := fat', data := s.data }, true)

/-! ### Reachable states

A state is reachable when it arises from `createDisk` by a sequence of the
mutating operations.  `copyToHost` and `listFiles` do not modify the state
(`copyToHost` only reads the stream), and `copyFromHost` with an unreadable
host file returns the state unchanged, so neither adds reachable states.
Side conditions on `put` record facts grounded in the environment and in the
C++ semantics: a successfully opened host file has a nonempty, NUL-free base
name, and `createDisk`'s size parameter is a `uint32`.  The condition `hub`
excludes exactly the calls whose truncated block count
`(uint32_t)ceil(size / BLOCK_SIZE)` is zero: such a call either fails one of
the earlier checks (returning the state unchanged, so no reachable state is
lost) or reaches `entry.firstBlock = blocks[0]` (line 257) with an *empty*
`blocks` vector — undefined behaviour in the source, which therefore defines
no successor state.  Imports whose count is merely truncated (but nonzero)
are covered. -/
inductive Reach : VFS → Prop where
  | create (diskSize : Nat) (hsz : diskSize < 2 ^ 32) : Reach (createDisk diskSize)
  | put {s : VFS} (fname bytes : List Nat) (now : Int) (hs : Reach s)
      (hn : fname ≠ []) (hz : 0 ∉ fname)
      (hub : ((bytes.length + BLOCK_SIZE - 1) / BLOCK_SIZE) % 2 ^ 32 ≠ 0) :
      Reach (copyFromHost s fname (some bytes) now).1
  | del {s : VFS} (fileName : List Nat) (hs : Reach s) :
      Reach (deleteFile s fileName).1

/-! ### Chains as lists of block indices -/

/-- `bs` is a correctly linked chain in `fat`: every block's FAT entry points
at the next block of the list and the last block's entry is `FAT_EOF`. -/
def chainLinked (fat : List Int) : List Nat → Bool
  | [] => true
  | [b] => fat.getD b 0 == FAT_EOF
  | b :: b' :: rest => fat.getD b 0 == (b' : Int) && chainLinked fat (b' :: rest)

/-- The blocks owned by a directory entry of a state: the walk from its
`firstBlock` (fuel `FAT.length` suffices for every state the program builds,
because a valid chain never revisits a block). -/
def chainOf (s : VFS) (i : Nat) : List Nat :=
  chainList s.fat ((s.directory.getD i default).firstBlock : Int) s.fat.length

/-- Well-formedness of one active directory entry `e` with chain `bs`.  The
chain length is the block count the import actually allocated:
`ceil(size / BLOCK_SIZE)` truncated to `uint32` by the cast at
`VirtualFileSystem.cpp:242`. -/
structure EntryOk (sb : SuperBlock) (fat : List Int) (e : DirEntry) (bs : List Nat) : Prop where
  ne : bs ≠ []
  head : bs.headD 0 = e.firstBlock
  len : bs.length = ((e.size + BLOCK_SIZE - 1) / BLOCK_SIZE) % 2 ^ 32
  sizePos : 0 < e.size
  mem : ∀ b ∈ bs, sb.dataStartBlock ≤ b ∧ b < fat.length
  nodup : bs.Nodup
  linked : chainLinked fat bs = true

/-- The state invariant maintained by every operation.  `reserved` covers the
metadata region, `chains` gives every active entry a well-formed chain,
`disjointChains` says no block belongs to two files, `cover` says every
non-free data block belongs to some file, and `nameLen` / `nameCol` describe
the stored (truncated) names. -/
structure VfsInv (s : VFS) : Prop where
  fatLen : s.fat.length = s.sb.totalBlocks
  dirLen : s.directory.length = MAX_FILES
  dataPos : 1 ≤ s.sb.dataStartBlock
  totalLt : s.sb.totalBlocks < 2 ^ 32
  reserved : ∀ i, i < s.sb.dataStartBlock → i < s.fat.length → s.fat.getD i 0 = FAT_RESERVED
  nameLen : ∀ e ∈ s.directory, e.name.length ≤ 31
  nameCol : ∀ i j, i < s.directory.length → j < s.directory.length → i ≠ j →
    (s.directory.getD i default).name ≠ [] → (s.directory.getD j default).name ≠ [] →
    (s.directory.getD i default).name = (s.directory.getD j default).name →
    (s.directory.getD i default).name.length = 31
  chains : ∀ i, i < s.directory.length → (s.directory.getD i default).name ≠ [] →
    ∃ bs, EntryOk s.sb s.fat (s.directory.getD i default) bs
  disjointChains : ∀ i j bsi bsj, i < s.directory.length → j < s.directory.length → i ≠ j →
    (s.directory.getD i default).name ≠ [] → (s.directory.getD j default).name ≠ [] →
    EntryOk s.sb s.fat (s.directory.getD i default) bsi →
    EntryOk s.sb s.fat (s.directory.getD j default) bsj →
    ∀ b ∈ bsi, b ∉ bsj
  cover : ∀ b, s.sb.dataStartBlock ≤ b → b < s.fat.length → s.fat.getD b 0 ≠ FAT_FREE →
    ∃ i bs, i < s.directory.length ∧ (s.directory.getD i default).name ≠ [] ∧
      EntryOk s.sb s.fat (s.directory.getD i default) bs ∧ b ∈ bs

/-! ### Counting definitions for the conservation property -/

/-- The number of FAT entries holding value `v`. -/
def countFatVal (s : VFS) (v : Int) : Nat :=
  ((Finset.range s.fat.length).filter fun i => s.fat.getD i 0 = v).card

/-- The slots of the active directory entries. -/
def activeIdx (s : VFS) : Finset Nat :=
  (Finset.range s.directory.length).filter fun i => (s.directory.getD i default).name ≠ []

/-- The sum over all active directory entries of the length of the chain
reached from their `firstBlock`. -/
def sumChainLengths (s : VFS) : Nat :=
  ∑ i in activeIdx s, (chainOf s i).length

/-! ### The block map (`showMap`, lines 381-430) -/

/-- The classification `describe_block` computes: the `(type, status)` string
pair, as a value (`status` is `"free"` exactly for `Free`, so the pair is
determined by this classification; `File(name1) = File(name2)` as string
pairs iff `name1 = name2`). -/
inductive BlockClass where
  | superblock
  | directoryBlock
  | fatBlock
  | freeBlock
  | fileBlock (name : List Nat)
  | unknownBlock
deriving DecidableEq

/-- The scan in `describe_block` (lines 394-406): the first active directory
entry, in slot order, whose chain walk from `firstBlock` visits block `i`
(the C++ walk is unbounded; fuel `FAT.length` covers every chain a reachable
state contains). -/
def fileOfBlock (s : VFS) (i : Nat) : Option DirEntry :=
  s.directory.find? fun e =>
    !e.name.isEmpty && decide (i ∈ chainList s.fat (e.firstBlock : Int) s.fat.length)

/-- `describe_block` (lines 385-412).  Reading `FAT[i]` for a block outside
every region is in range because `FAT.size() == totalBlocks`. -/
def describeBlock (s : VFS) (i : Nat) : BlockClass :=
  if i = 0 then .superblock
  else if s.sb.dirStartBlock ≤ i ∧ i < s.sb.dirStartBlock + s.sb.dirBlockCount then
    .directoryBlock
  else if s.sb.fatStartBlock ≤ i ∧ i < s.sb.fatStartBlock + s.sb.fatBlockCount then
    .fatBlock
  else if s.fat.getD i 0 = FAT_FREE then .freeBlock
  else
    match fileOfBlock s i with
    | some e => .fileBlock e.name
    | none => .unknownBlock

/-- The coalescing loop of `showMap` (lines 414-429): `start`/`curr` are the
running range, the list holds the remaining indices `i` to examine, and when
it is exhausted the final group `(start, n - 1, curr)` is flushed. -/
def rangesAux (f : Nat → BlockClass) (n : Nat) :
    Nat → BlockClass → List Nat → List (Nat × Nat × BlockClass)
  | start, curr, [] => [(start, n - 1, curr)]
  | start, curr, i :: rest =>
    if f i = curr then rangesAux f n start curr rest
    else (start, i - 1, curr) :: rangesAux f n i (f i) rest

/-- The output of `showMap`: one `(first, last, classification)` triple per
printed line. -/
def showMapRanges (s : VFS) : List (Nat × Nat × BlockClass) :=
  rangesAux (describeBlock s) s.sb.totalBlocks 0 (describeBlock s 0)
    ((List.range s.sb.totalBlocks).drop 1)

/-- `rs` is a correct coalesced report of `f` on the blocks `lo .. n-1`:
consecutive ranges are adjacent and ascending, they cover everything up to
`n - 1`, each range is homogeneous, and each range is maximal (the block
after it is classified differently). -/
inductive RangesOk (f : Nat → BlockClass) (n : Nat) : Nat → List (Nat × Nat × BlockClass) → Prop
  | last (lo en : Nat) (c : BlockClass) :
      lo ≤ en → en + 1 = n → (∀ i, lo ≤ i → i ≤ en → f i = c) →
      RangesOk f n lo [(lo, en, c)]
  | cons (lo en : Nat) (c : BlockClass) (rest : List (Nat × Nat × BlockClass)) :
      lo ≤ en → en + 1 < n → (∀ i, lo ≤ i → i ≤ en → f i = c) → f (en + 1) ≠ c →
      RangesOk f n (en + 1) rest →
      RangesOk f n lo ((lo, en, c) :: rest)

/-! ### Concrete example volumes

`createDisk 8192` gives 16 blocks: block 0 superblock, blocks 1-7 directory,
block 8 FAT, blocks 9-15 data. -/

def exDisk : VFS := createDisk 8192

/-- 31 times the byte `'a'`: exactly the width of the stored name field. -/
def longA : List Nat := List.replicate 31 97

/-- A 32-byte host base name: 31 times `'a'` then `'b'`. -/
def exName1 : List Nat := longA ++ [98]

/-- A 32-byte host base name: 31 times `'a'` then `'c'`. -/
def exName2 : List Nat := longA ++ [99]

/-- The fresh volume after importing `exName1` with content `[1]`. -/
def exState1 : VFS := (copyFromHost exDisk exName1 (some [1]) 0).1

/-- `exState1` after importing `exName2` with content `[2]`: both names are
truncated to the same 31 stored bytes. -/
def exState2 : VFS := (copyFromHost exState1 exName2 (some [2]) 0).1

/-- The fresh volume after importing a 600-byte file named `'a'`
(occupying data blocks 9 and 10). -/
def exImported : VFS := (copyFromHost exDisk [97] (some (List.replicate 600 7)) 0).1

/-- A volume whose directory is completely full: 64 active entries with
pairwise distinct one-byte names `[1] .. [64]`. -/
def exFullDir : VFS :=
  { sb := mkSuperBlock (512 * 80)
    directory := (List.range MAX_FILES).map fun i =>
      { name := [i + 1], size := 1, created := 0, type := 70, firstBlock := 9 + i }
    fat := List.replicate 80 FAT_FREE
    diskDirectory := (List.range MAX_FILES).map fun i =>
      { name := [i + 1], size := 1, created := 0, type := 70, firstBlock := 9 + i }
    diskFat := List.replicate 80 FAT_FREE
    data := fun _ => List.replicate BLOCK_SIZE 0 }

/-- A 6-block volume with a corrupt allocation table: the file `'a'` starts at
block 4 whose successor pointer leads into metadata block 1 (a `RESERVED`
entry). -/
def exCorrupt : VFS :=
  { sb := { fsName := FS_NAME, blockSize := BLOCK_SIZE, totalBlocks := 6,
            totalDirEntries := MAX_FILES, dirStartBlock := 1, dirBlockCount := 1,
            fatStartBlock := 2, fatBlockCount := 1, dataStartBlock := 3 }
    directory := { name := [97], size := 700, created := 0, type := 70, firstBlock := 4 } ::
      List.replicate 63 emptyEntry
    fat := [-2, -2, -2, 0, 1, -1]
    diskDirectory := { name := [97], size := 700, created := 0, type := 70, firstBlock := 4 }
      :: List.replicate 63 emptyEntry
    diskFat := [-2, -2, -2, 0, 1, -1]
    data := fun _ => List.replicate BLOCK_SIZE 0 }

/-- An 11-block volume (1 superblock, 1 directory block, 1 FAT block) where
blocks 5-9 form the chain of the file `'a'`, and blocks 3, 4 and 10 are free:
the block-map example of the specification. -/
def exMapState : VFS :=
  { sb := { fsName := FS_NAME, blockSize := BLOCK_SIZE, totalBlocks := 11,
            totalDirEntries := MAX_FILES, dirStartBlock := 1, dirBlockCount := 1,
            fatStartBlock := 2, fatBlockCount := 1, dataStartBlock := 3 }
    directory := { name := [97], size := 2200, created := 0, type := 70, firstBlock := 5 } ::
      List.replicate 63 emptyEntry
    fat := [-2, -2, -2, 0, 0, 6, 7, 8, 9, -1, 0]
    diskDirectory := { name := [97], size := 2200, created := 0, type := 70, firstBlock := 5 }
      :: List.replicate 63 emptyEntry
    diskFat := [-2, -2, -2, 0, 0, 6, 7, 8, 9, -1, 0]
    data := fun _ => List.replicate BLOCK_SIZE 0 }

/-- `512 * (2^32 + 1)` bytes — the size of a (sparse) host file whose block
count overflows the `uint32` cast: `ceil(hugeLen / 512) = 2^32 + 1`, truncated
to `1`. -/
def hugeLen : Nat := 512 * (2 ^ 32 + 1)

/-- The content of such a host file (all zero bytes, as `truncate -s` would
produce). -/
def hugeBytes : List Nat := List.replicate hugeLen 0

/-! ### Basic list lemmas -/

theorem getD_set_self {α : Type} {l : List α} {i : Nat} {v d : α} (h : i < l.length) :
    (l.set i v).getD i d = v := by
  simp [List.getD_eq_getElem?_getD, List.getElem?_set_self h]

theorem getD_set_ne {α : Type} {l : List α} {i j : Nat} {v d : α} (h : i ≠ j) :
    (l.set i v).getD j d = l.getD j d := by
  simp [List.getD_eq_getElem?_getD, List.getElem?_set_ne h]

theorem drop_range_eq (n m : Nat) : (List.range n).drop m = List.range' m (n - m) := by
  induction n generalizing m with
  | zero => simp
  | succ n ih =>
    rcases le_or_lt m n with hm | hm
    · rw [List.range_succ, List.drop_append_of_le_length (by simpa using hm), ih]
      have h1 : n + 1 - m = (n - m) + 1 := by omega
      rw [h1, List.range'_concat]
      congr 2
      omega
    · have h2 : n + 1 - m = 0 := by omega
      rw [List.drop_eq_nil_of_le (by simpa using hm), h2]
      rfl

theorem mem_drop_range {n m b : Nat} : b ∈ (List.range n).drop m ↔ m ≤ b ∧ b < n := by
  rw [drop_range_eq]
  simp only [List.mem_range']
  constructor
  · rintro ⟨i, hi, rfl⟩
    omega
  · intro h
    exact ⟨b - m, by omega, by omega⟩

/-! ### Characterization of the directory scans -/

theorem findEntryIdx_none {nm : List Nat} {dir : List DirEntry} :
    findEntryIdx nm dir = none ↔ ∀ e ∈ dir, e.name = [] ∨ nm ≠ e.name := by
  induction dir with
  | nil => simp [findEntryIdx]
  | cons e rest ih =>
    by_cases h : e.name ≠ [] ∧ nm = e.name
    · simp only [findEntryIdx, if_pos h]
      constructor
      · intro hc
        exact absurd hc (by simp)
      · intro hall
        rcases hall e (by simp) with h1 | h1
        · exact absurd h1 h.1
        · exact absurd h.2 h1
    · simp only [findEntryIdx, if_neg h, Option.map_eq_none', ih, List.mem_cons]
      constructor
      · intro hall
        rintro x (rfl | hx)
        · by_cases hx1 : x.name = []
          · exact Or.inl hx1
          · exact Or.inr fun hx2 => h ⟨hx1, hx2⟩
        · exact hall x hx
      · intro hall x hx
        exact hall x (Or.inr hx)

theorem findEntryIdx_some {nm : List Nat} {dir : List DirEntry} {i : Nat}
    (h : findEntryIdx nm dir = some i) :
    i < dir.length ∧ (dir.getD i default).name ≠ [] ∧ nm = (dir.getD i default).name ∧
      ∀ j < i, ¬((dir.getD j default).name ≠ [] ∧ nm = (dir.getD j default).name) := by
  induction dir generalizing i with
  | nil => simp [findEntryIdx] at h
  | cons e rest ih =>
    by_cases hc : e.name ≠ [] ∧ nm = e.name
    · simp only [findEntryIdx, if_pos hc] at h
      cases h
      refine ⟨by simp, by simpa using hc.1, by simpa using hc.2, by omega⟩
    · simp only [findEntryIdx, if_neg hc, Option.map_eq_some'] at h
      obtain ⟨i', hi', rfl⟩ := h
      obtain ⟨h1, h2, h3, h4⟩ := ih hi'
      refine ⟨by simpa using h1, by simpa using h2, by simpa using h3, ?_⟩
      rintro (_ | j) hj
      · simpa using hc
      · simpa using h4 j (by omega)

theorem findEntryIdx_eq_some {nm : List Nat} {dir : List DirEntry} {i : Nat}
    (hi : i < dir.length)
    (hP : (dir.getD i default).name ≠ [] ∧ nm = (dir.getD i default).name)
    (hmin : ∀ j < i, ¬((dir.getD j default).name ≠ [] ∧ nm = (dir.getD j default).name)) :
    findEntryIdx nm dir = some i := by
  induction dir generalizing i with
  | nil => simp at hi
  | cons e rest ih =>
    cases i with
    | zero =>
      simp only [List.getD_cons_zero] at hP
      simp [findEntryIdx, hP]
    | succ i =>
      have hc : ¬(e.name ≠ [] ∧ nm = e.name) := by simpa using hmin 0 (by omega)
      simp only [findEntryIdx, if_neg hc, Option.map_eq_some']
      refine ⟨i, ?_, rfl⟩
      refine ih (by simpa using hi) (by simpa using hP) ?_
      intro j hj
      simpa using hmin (j + 1) (by omega)

theorem findSlotIdx_none {dir : List DirEntry} :
    findSlotIdx dir = none ↔ ∀ e ∈ dir, e.name ≠ [] := by
  induction dir with
  | nil => simp [findSlotIdx]
  | cons e rest ih =>
    by_cases h : e.name = []
    · simp [findSlotIdx, h]
    · simp only [findSlotIdx, if_neg h, Option.map_eq_none', ih, List.mem_cons]
      constructor
      · rintro hall x (rfl | hx)
        · exact h
        · exact hall x hx
      · intro hall x hx
        exact hall x (Or.inr hx)

theorem findSlotIdx_some {dir : List DirEntry} {i : Nat} (h : findSlotIdx dir = some i) :
    i < dir.length ∧ (dir.getD i default).name = [] ∧
      ∀ j < i, (dir.getD j default).name ≠ [] := by
  induction dir generalizing i with
  | nil => simp [findSlotIdx] at h
  | cons e rest ih =>
    by_cases hc : e.name = []
    · simp only [findSlotIdx, if_pos hc] at h
      cases h
      exact ⟨by simp, by simpa using hc, by omega⟩
    · simp only [findSlotIdx, if_neg hc, Option.map_eq_some'] at h
      obtain ⟨i', hi', rfl⟩ := h
      obtain ⟨h1, h2, h3⟩ := ih hi'
      refine ⟨by simpa using h1, by simpa using h2, ?_⟩
      rintro (_ | j) hj
      · simpa using hc
      · simpa using h3 j (by omega)

/-! ### Properties of the free-block scan -/

theorem freeBlockScan_nodup (fat : List Int) (ds : Nat) : (freeBlockScan fat ds).Nodup :=
  ((List.filter_sublist _).trans (List.drop_sublist _ _)).nodup (List.nodup_range _)

theorem mem_freeBlockScan {fat : List Int} {ds b : Nat} :
    b ∈ freeBlockScan fat ds ↔ ds ≤ b ∧ b < fat.length ∧ fat.getD b 0 = FAT_FREE := by
  simp only [freeBlockScan, List.mem_filter, mem_drop_range, beq_iff_eq]
  tauto

theorem findFreeBlocks_nodup (fat : List Int) (ds n : Nat) :
    (findFreeBlocks fat ds n).Nodup :=
  ((List.take_sublist _ _).nodup (freeBlockScan_nodup fat ds))

theorem findFreeBlocks_subset {fat : List Int} {ds n b : Nat}
    (h : b ∈ findFreeBlocks fat ds n) :
    ds ≤ b ∧ b < fat.length ∧ fat.getD b 0 = FAT_FREE :=
  mem_freeBlockScan.1 (List.take_subset _ _ h)

theorem findFreeBlocks_length {fat : List Int} {ds n : Nat}
    (h : n ≤ (freeBlockScan fat ds).length) :
    (findFreeBlocks fat ds n).length = n := by
  simp [findFreeBlocks, List.length_take]
  omega

/-! ### Chain lemmas -/

theorem getD_default_eq {α : Type} {l : List α} {i : Nat} (h : i < l.length) (d d' : α) :
    l.getD i d = l.getD i d' := by
  simp [List.getD_eq_getElem?_getD, List.getElem?_eq_getElem h]

theorem linkChain_length (fat : List Int) (bs : List Nat) :
    (linkChain fat bs).length = fat.length := by
  induction bs generalizing fat with
  | nil => rfl
  | cons b rest ih =>
    cases rest with
    | nil => simp [linkChain]
    | cons b' rest' => rw [linkChain, ih, List.length_set]

theorem linkChain_getD_not_mem {fat : List Int} {bs : List Nat} {j : Nat} (h : j ∉ bs) :
    (linkChain fat bs).getD j 0 = fat.getD j 0 := by
  induction bs generalizing fat with
  | nil => rfl
  | cons b rest ih =>
    have hb : b ≠ j := fun hbj => h (by simp [hbj])
    have hr : j ∉ rest := fun hjr => h (by simp [hjr])
    cases rest with
    | nil => exact getD_set_ne hb
    | cons b' rest' => rw [linkChain, ih hr, getD_set_ne hb]

theorem chainLinked_congr {fat fat2 : List Int} {bs : List Nat}
    (h : ∀ b ∈ bs, fat2.getD b 0 = fat.getD b 0) :
    chainLinked fat2 bs = chainLinked fat bs := by
  induction bs with
  | nil => rfl
  | cons b rest ih =>
    cases rest with
    | nil =>
      simp only [chainLinked]
      rw [h b (by simp)]
    | cons b' rest' =>
      simp only [chainLinked]
      rw [h b (by simp), ih fun x hx => h x (by simp [hx])]

theorem linkChain_linked {fat : List Int} {bs : List Nat}
    (hnd : bs.Nodup) (hlt : ∀ b ∈ bs, b < fat.length) :
    chainLinked (linkChain fat bs) bs = true := by
  induction bs generalizing fat with
  | nil => rfl
  | cons b rest ih =>
    cases rest with
    | nil =>
      simp only [linkChain, chainLinked, beq_iff_eq]
      exact getD_set_self (hlt b (by simp))
    | cons b' rest' =>
      have hb : b ∉ b' :: rest' := (List.nodup_cons.1 hnd).1
      simp only [linkChain, chainLinked, Bool.and_eq_true, beq_iff_eq]
      constructor
      · rw [linkChain_getD_not_mem hb, getD_set_self (hlt b (by simp))]
      · exact ih (List.nodup_cons.1 hnd).2
          fun x hx => by rw [List.length_set]; exact hlt x (by simp [hx])

theorem chainLinked_val {fat : List Int} {bs : List Nat} (h : chainLinked fat bs = true) :
    ∀ b ∈ bs, fat.getD b 0 = FAT_EOF ∨ ∃ c ∈ bs, fat.getD b 0 = (c : Int) := by
  induction bs with
  | nil => simp
  | cons b rest ih =>
    cases rest with
    | nil =>
      intro x hx
      simp only [List.mem_singleton] at hx
      subst hx
      simp only [chainLinked, beq_iff_eq] at h
      exact Or.inl h
    | cons b' rest' =>
      simp only [chainLinked, Bool.and_eq_true, beq_iff_eq] at h
      intro x hx
      rcases List.mem_cons.1 hx with rfl | hx'
      · exact Or.inr ⟨b', by simp, h.1⟩
      · rcases ih h.2 x hx' with h1 | ⟨c, hc, h2⟩
        · exact Or.inl h1
        · exact Or.inr ⟨c, by simp [List.mem_cons.1 hc], h2⟩

theorem chainLinked_getLast {fat : List Int} {bs : List Nat} (hne : bs ≠ [])
    (h : chainLinked fat bs = true) : fat.getD (bs.getLastD 0) 0 = FAT_EOF := by
  induction bs with
  | nil => cases hne rfl
  | cons b rest ih =>
    cases rest with
    | nil =>
      simp only [chainLinked, beq_iff_eq] at h
      simpa using h
    | cons b' rest' =>
      simp only [chainLinked, Bool.and_eq_true] at h
      simpa using ih (by simp) h.2

theorem chainList_neg {fat : List Int} {blk : Int} (h : blk < 0) (fuel : Nat) :
    chainList fat blk fuel = [] := by
  cases fuel <;> simp [chainList, h]

theorem chainList_eq {fat : List Int} {bs : List Nat} {fuel : Nat}
    (h : chainLinked fat bs = true) (hlt : ∀ b ∈ bs, b < fat.length)
    (hne : bs ≠ []) (hfuel : bs.length ≤ fuel) :
    chainList fat ((bs.headD 0 : Nat) : Int) fuel = bs := by
  induction bs generalizing fat fuel with
  | nil => cases hne rfl
  | cons b rest ih =>
    cases fuel with
    | zero => simp at hfuel
    | succ fuel =>
      have hnn : ¬((b : Int) < 0) := by omega
      have htn : ((b : Int)).toNat = b := rfl
      have hbd : fat.getD b FAT_EOF = fat.getD b 0 :=
        getD_default_eq (hlt b (by simp)) _ _
      have heof : (FAT_EOF : Int) < 0 := by simp only [FAT_EOF]; omega
      cases rest with
      | nil =>
        simp only [chainLinked, beq_iff_eq] at h
        rw [List.headD_cons, chainList, if_neg hnn, htn, hbd, h, chainList_neg heof]
      | cons b' rest' =>
        simp only [chainLinked, Bool.and_eq_true, beq_iff_eq] at h
        rw [List.headD_cons, chainList, if_neg hnn, htn, hbd, h.1]
        have := ih h.2 (fun x hx => hlt x (by simp [hx])) (by simp)
          (by simpa using Nat.le_of_succ_le_succ hfuel)
        simpa using this

theorem chain_unique {fat : List Int} {bs1 bs2 : List Nat}
    (h1 : chainLinked fat bs1 = true) (h2 : chainLinked fat bs2 = true)
    (hne1 : bs1 ≠ []) (hne2 : bs2 ≠ []) (hh : bs1.headD 0 = bs2.headD 0) :
    bs1 = bs2 := by
  induction bs1 generalizing bs2 with
  | nil => cases hne1 rfl
  | cons b r1 ih =>
    obtain ⟨b2, r2, rfl⟩ := List.exists_cons_of_ne_nil hne2
    simp only [List.headD_cons] at hh
    subst hh
    cases r1 with
    | nil =>
      cases r2 with
      | nil => rfl
      | cons c2 t2 =>
        simp only [chainLinked, beq_iff_eq, Bool.and_eq_true] at h1 h2
        rw [h1] at h2
        have : (FAT_EOF : Int) ≠ (c2 : Int) := by simp only [FAT_EOF]; omega
        exact absurd h2.1 this
    | cons c1 t1 =>
      cases r2 with
      | nil =>
        simp only [chainLinked, beq_iff_eq, Bool.and_eq_true] at h1 h2
        rw [h2] at h1
        have : (FAT_EOF : Int) ≠ (c1 : Int) := by simp only [FAT_EOF]; omega
        exact absurd h1.1 this
      | cons c2 t2 =>
        simp only [chainLinked, beq_iff_eq, Bool.and_eq_true] at h1 h2
        have hc : c1 = c2 := by
          have := h1.1.symm.trans h2.1
          exact_mod_cast this
        subst hc
        have := ih h1.2 h2.2 (by simp) (by simp) (by simp)
        rw [this]

/-! ### Lemmas about the chain-freeing loop -/

theorem freeChain_stop {fat : List Int} {blk : Int}
    (h : blk = FAT_EOF ∨ blk = FAT_RESERVED) (fuel : Nat) :
    freeChain fat blk fuel = fat := by
  cases fuel with
  | zero => rfl
  | succ fuel => simp [freeChain, h]

theorem freeChain_length (fat : List Int) (blk : Int) (fuel : Nat) :
    (freeChain fat blk fuel).length = fat.length := by
  induction fuel generalizing fat blk with
  | zero => rfl
  | succ fuel ih =>
    by_cases h1 : blk = FAT_EOF ∨ blk = FAT_RESERVED
    · rw [freeChain_stop h1]
    · by_cases h2 : 0 ≤ blk ∧ blk.toNat < fat.length
      · simp only [freeChain, if_neg h1, if_pos h2]
        rw [ih, List.length_set]
      · simp [freeChain, h1, h2]

theorem freeChain_chain {fat : List Int} {bs : List Nat} {fuel : Nat}
    (hlink : chainLinked fat bs = true) (hnd : bs.Nodup)
    (hlt : ∀ b ∈ bs, b < fat.length) (hne : bs ≠ []) (hfuel : bs.length ≤ fuel) :
    ∀ j, (freeChain fat ((bs.headD 0 : Nat) : Int) fuel).getD j 0 =
      if j ∈ bs then FAT_FREE else fat.getD j 0 := by
  induction bs generalizing fat fuel with
  | nil => cases hne rfl
  | cons b rest ih =>
    cases fuel with
    | zero => simp at hfuel
    | succ fuel =>
      intro j
      have hb : b < fat.length := hlt b (by simp)
      have hg1 : ¬((b : Int) = FAT_EOF ∨ (b : Int) = FAT_RESERVED) := by
        simp only [FAT_EOF, FAT_RESERVED]
        omega
      have hg2 : 0 ≤ (b : Int) ∧ ((b : Int)).toNat < fat.length := by
        constructor
        · omega
        · simpa using hb
      rw [List.headD_cons, freeChain, if_neg hg1, if_pos hg2]
      have htn : ((b : Int)).toNat = b := rfl
      rw [htn]
      cases rest with
      | nil =>
        simp only [chainLinked, beq_iff_eq] at hlink
        rw [hlink, freeChain_stop (Or.inl rfl)]
        by_cases hj : j = b
        · subst hj
          rw [getD_set_self hb]
          simp
        · rw [getD_set_ne (Ne.symm hj)]
          simp [hj]
      | cons b' rest' =>
        simp only [chainLinked, Bool.and_eq_true, beq_iff_eq] at hlink
        have hbn : b ∉ b' :: rest' := (List.nodup_cons.1 hnd).1
        have hlink' : chainLinked (fat.set b FAT_FREE) (b' :: rest') = true := by
          rw [chainLinked_congr fun x hx => getD_set_ne
            (fun hbx => hbn (by rw [hbx]; exact hx))]
          exact hlink.2
        rw [hlink.1]
        have hh : ((b' :: rest').headD 0 : Nat) = b' := rfl
        have := ih hlink' (List.nodup_cons.1 hnd).2
          (fun x hx => by rw [List.length_set]; exact hlt x (by simp [hx]))
          (by simp) (by simpa using Nat.le_of_succ_le_succ hfuel) j
        rw [hh] at this
        rw [this]
        by_cases hj : j ∈ b' :: rest'
        · simp [hj, List.mem_cons.2 (Or.inr hj)]
        · by_cases hjb : j = b
          · subst hjb
            rw [if_neg hj, getD_set_self hb]
            simp
          · rw [if_neg hj, getD_set_ne (Ne.symm hjb)]
            have : j ∉ b :: b' :: rest' := by
              simp only [List.mem_cons]
              push_neg
              exact ⟨hjb, by simpa using hj⟩
            simp [this]

theorem freeChain_reserved_pair :
    ∀ (fuel : Nat) (fat : List Int) (blk : Int) (j k : Nat), j ≠ k →
      fat.getD j 0 = FAT_RESERVED → fat.getD k 0 = FAT_RESERVED →
      (freeChain fat blk fuel).getD j 0 = FAT_RESERVED ∨
        (freeChain fat blk fuel).getD k 0 = FAT_RESERVED := by
  intro fuel
  induction fuel with
  | zero => intro fat blk j k _ hj _; exact Or.inl hj
  | succ fuel ih =>
    intro fat blk j k hjk hj hk
    by_cases h1 : blk = FAT_EOF ∨ blk = FAT_RESERVED
    · rw [freeChain_stop h1]
      exact Or.inl hj
    · by_cases h2 : 0 ≤ blk ∧ blk.toNat < fat.length
      · rw [freeChain, if_neg h1, if_pos h2]
        by_cases hbj : blk.toNat = j
        · subst hbj
          rw [hj, freeChain_stop (show (FAT_RESERVED : Int) = FAT_EOF ∨
            (FAT_RESERVED : Int) = FAT_RESERVED from Or.inr rfl)]
          exact Or.inr (by rw [getD_set_ne fun h => hjk h]; exact hk)
        · by_cases hbk : blk.toNat = k
          · subst hbk
            rw [hk, freeChain_stop (show (FAT_RESERVED : Int) = FAT_EOF ∨
              (FAT_RESERVED : Int) = FAT_RESERVED from Or.inr rfl)]
            exact Or.inl (by rw [getD_set_ne fun h => hjk h.symm]; exact hj)
          · exact ih _ _ j k hjk
              (by rw [getD_set_ne hbj]; exact hj)
              (by rw [getD_set_ne hbk]; exact hk)
      · simp only [freeChain, if_neg h1, if_neg h2]
        exact Or.inl hj

theorem freeChain_val_or_free :
    ∀ (fuel : Nat) (fat : List Int) (blk : Int) (j : Nat),
      (freeChain fat blk fuel).getD j 0 = fat.getD j 0 ∨
        (freeChain fat blk fuel).getD j 0 = FAT_FREE := by
  intro fuel
  induction fuel with
  | zero => intro fat blk j; exact Or.inl rfl
  | succ fuel ih =>
    intro fat blk j
    by_cases h1 : blk = FAT_EOF ∨ blk = FAT_RESERVED
    · rw [freeChain_stop h1]
      exact Or.inl rfl
    · by_cases h2 : 0 ≤ blk ∧ blk.toNat < fat.length
      · rw [freeChain, if_neg h1, if_pos h2]
        rcases ih (fat.set blk.toNat FAT_FREE) (fat.getD blk.toNat 0) j with h | h
        · by_cases hbj : blk.toNat = j
          · subst hbj
            rw [h, getD_set_self h2.2]
            exact Or.inr rfl
          · rw [h, getD_set_ne hbj]
            exact Or.inl rfl
        · exact Or.inr h
      · rw [freeChain, if_neg h1, if_neg h2]
        exact Or.inl rfl

/-! ### The invariant holds after `createDisk` -/

theorem getD_replicate {α : Type} {n i : Nat} {a d : α} (h : i < n) :
    (List.replicate n a).getD i d = a := by
  simp [List.getD_eq_getElem?_getD, List.getElem?_replicate, h]

theorem reserveMeta_cons (fat : List Int) (n : Nat) :
    reserveMeta fat (n + 1) = (reserveMeta fat n).set n FAT_RESERVED := by
  simp [reserveMeta, List.range_succ]

theorem reserveMeta_length (fat : List Int) (n : Nat) :
    (reserveMeta fat n).length = fat.length := by
  induction n with
  | zero => rfl
  | succ n ih => rw [reserveMeta_cons, List.length_set, ih]

theorem reserveMeta_getD (fat : List Int) (n j : Nat) :
    (reserveMeta fat n).getD j 0 =
      if j < n ∧ j < fat.length then FAT_RESERVED else fat.getD j 0 := by
  induction n with
  | zero =>
    have h0 : ¬(j < 0 ∧ j < fat.length) := by omega
    rw [if_neg h0]
    rfl
  | succ n ih =>
    rw [reserveMeta_cons]
    by_cases hj : j = n
    · subst hj
      by_cases hl : j < fat.length
      · rw [getD_set_self (by rw [reserveMeta_length]; exact hl), if_pos ⟨by omega, hl⟩]
      · rw [if_neg (by omega),
          List.set_eq_of_length_le (by rw [reserveMeta_length]; omega), ih,
          if_neg (by omega)]
    · rw [getD_set_ne (Ne.symm hj), ih]
      by_cases h1 : j < n ∧ j < fat.length
      · rw [if_pos h1, if_pos ⟨by omega, h1.2⟩]
      · rw [if_neg h1, if_neg (by omega)]

theorem mkSuperBlock_eq (d : Nat) :
    mkSuperBlock d =
      { fsName := FS_NAME
        blockSize := BLOCK_SIZE
        totalBlocks := roundDiskSize d / BLOCK_SIZE
        totalDirEntries := MAX_FILES
        dirStartBlock := 1
        dirBlockCount := 7
        fatStartBlock := 8
        fatBlockCount := (roundDiskSize d / BLOCK_SIZE * 4 + BLOCK_SIZE - 1) / BLOCK_SIZE
        dataStartBlock :=
          8 + (roundDiskSize d / BLOCK_SIZE * 4 + BLOCK_SIZE - 1) / BLOCK_SIZE } :=
  rfl

theorem roundDiskSize_lt {d : Nat} (h : d < 2 ^ 32) : roundDiskSize d < 2 ^ 32 := by
  rw [roundDiskSize]
  split <;> split
  · exact Nat.mod_lt _ (by norm_num)
  · norm_num [DEFAULT_DISK_SIZE]
  · exact Nat.mod_lt _ (by norm_num)
  · exact h

theorem vfsInv_create (d : Nat) (hsz : d < 2 ^ 32) : VfsInv (createDisk d) := by
  have hsb : (createDisk d).sb = mkSuperBlock d := rfl
  have hfat : (createDisk d).fat =
      reserveMeta (List.replicate (mkSuperBlock d).totalBlocks FAT_FREE)
        (mkSuperBlock d).dataStartBlock := rfl
  have hdir : (createDisk d).directory = List.replicate MAX_FILES emptyEntry := rfl
  have hlen : (createDisk d).fat.length = (mkSuperBlock d).totalBlocks := by
    rw [hfat, reserveMeta_length, List.length_replicate]
  have hgetD : ∀ j, j < (mkSuperBlock d).totalBlocks →
      (createDisk d).fat.getD j 0 =
        if j < (mkSuperBlock d).dataStartBlock then FAT_RESERVED else FAT_FREE := by
    intro j hj
    rw [hfat, reserveMeta_getD, List.length_replicate]
    by_cases h1 : j < (mkSuperBlock d).dataStartBlock
    · rw [if_pos ⟨h1, hj⟩, if_pos h1]
    · rw [if_neg (by tauto), if_neg h1, getD_replicate hj]
  have hdirD : ∀ i, i < MAX_FILES → ((createDisk d).directory.getD i default) = emptyEntry := by
    intro i hi
    rw [hdir, getD_replicate hi]
  refine ⟨?_, ?_, ?_, ?_, ?_, ?_, ?_, ?_, ?_, ?_⟩
  · rw [hlen, hsb]
  · rw [hdir, List.length_replicate]
  · rw [hsb]
    have h8 : (mkSuperBlock d).dataStartBlock = 8 + (roundDiskSize d / 512 * 4 + 511) / 512 :=
      rfl
    omega
  · rw [hsb]
    have ht : (mkSuperBlock d).totalBlocks = roundDiskSize d / 512 := rfl
    have hr := roundDiskSize_lt hsz
    have hd := Nat.div_le_self (roundDiskSize d) 512
    omega
  · intro i h1 h2
    rw [hsb] at h1
    rw [hlen] at h2
    rw [hgetD i h2, if_pos h1]
  · intro e he
    rw [hdir] at he
    rw [List.eq_of_mem_replicate he]
    simp [emptyEntry]
  · intro i j hi hj hij hni hnj heq
    rw [hdir, List.length_replicate] at hi
    rw [hdirD i hi] at hni
    simp [emptyEntry] at hni
  · intro i hi hni
    rw [hdir, List.length_replicate] at hi
    rw [hdirD i hi] at hni
    simp [emptyEntry] at hni
  · intro i j bsi bsj hi hj hij hni hnj hoki hokj
    rw [hdir, List.length_replicate] at hi
    rw [hdirD i hi] at hni
    simp [emptyEntry] at hni
  · intro b hb1 hb2 hb3
    rw [hsb] at hb1
    rw [hlen] at hb2
    rw [hgetD b hb2, if_neg (by omega)] at hb3
    exact absurd rfl hb3

/-! ### The invariant is preserved by `deleteFile` -/

theorem entryOk_unique {sb : SuperBlock} {fat : List Int} {e : DirEntry} {bs1 bs2 : List Nat}
    (h1 : EntryOk sb fat e bs1) (h2 : EntryOk sb fat e bs2) : bs1 = bs2 :=
  chain_unique h1.linked h2.linked h1.ne h2.ne (h1.head.trans h2.head.symm)

theorem entryOk_val {sb : SuperBlock} {fat : List Int} {e : DirEntry} {bs : List Nat}
    (hok : EntryOk sb fat e bs) (hds : 1 ≤ sb.dataStartBlock) :
    ∀ b ∈ bs, fat.getD b 0 ≠ FAT_FREE ∧ fat.getD b 0 ≠ FAT_RESERVED := by
  intro b hb
  rcases chainLinked_val hok.linked b hb with h | ⟨c, hc, h⟩
  · rw [h]
    constructor <;> simp [FAT_EOF, FAT_FREE, FAT_RESERVED]
  · rw [h]
    have hc1 : 1 ≤ c := le_trans hds (hok.mem c hc).1
    constructor <;> · simp only [FAT_FREE, FAT_RESERVED]; omega

theorem nodup_length_le {bs : List Nat} {n : Nat} (hnd : bs.Nodup) (hlt : ∀ b ∈ bs, b < n) :
    bs.length ≤ n := by
  have hsub : bs.toFinset ⊆ Finset.range n := by
    intro b hb
    simp only [List.mem_toFinset] at hb
    exact Finset.mem_range.2 (hlt b hb)
  have := Finset.card_le_card hsub
  rwa [List.toFinset_card_of_nodup hnd, Finset.card_range] at this

theorem deleteFile_not_found {s : VFS} {nm : List Nat}
    (h : findDirectoryEntry s.directory nm = none) : deleteFile s nm = (s, false) := by
  unfold deleteFile
  rw [h]

theorem deleteFile_found {s : VFS} {nm : List Nat} {idx : Nat}
    (h : findDirectoryEntry s.directory nm = some idx) :
    deleteFile s nm =
      ({ sb := s.sb
         directory := s.directory.set idx
           { s.directory.getD idx default with name := [], size := 0, firstBlock := 0 }
         fat := freeChain s.fat ((s.directory.getD idx default).firstBlock : Int) s.fat.length
         diskDirectory := s.directory.set idx
           { s.directory.getD idx default with name := [], size := 0, firstBlock := 0 }
         diskFat := freeChain s.fat ((s.directory.getD idx default).firstBlock : Int)
           s.fat.length
         data := s.data }, true) := by
  unfold deleteFile
  rw [h]

theorem vfsInv_delete {s : VFS} (hinv : VfsInv s) (nm : List Nat) :
    VfsInv (deleteFile s nm).1 := by
  cases hfind : findDirectoryEntry s.directory nm with
  | none => rw [deleteFile_not_found hfind]; exact hinv
  | some idx =>
    rw [deleteFile_found hfind]
    obtain ⟨hidx, hact, hnmeq, -⟩ := findEntryIdx_some hfind
    obtain ⟨bs, hok⟩ := hinv.chains idx hidx hact
    have hblt : ∀ b ∈ bs, b < s.fat.length := fun b hb => (hok.mem b hb).2
    have hfuel : bs.length ≤ s.fat.length := nodup_length_le hok.nodup hblt
    set entry := s.directory.getD idx default with hentry
    set fat' := freeChain s.fat (entry.firstBlock : Int) s.fat.length with hfat'
    set cleared : DirEntry := { entry with name := [], size := 0, firstBlock := 0 }
      with hcleared
    set dir' := s.directory.set idx cleared with hdir'
    have hfc : ∀ j, fat'.getD j 0 = if j ∈ bs then FAT_FREE else s.fat.getD j 0 := by
      intro j
      rw [hfat', ← hok.head]
      exact freeChain_chain hok.linked hok.nodup hblt hok.ne hfuel j
    have hflen : fat'.length = s.fat.length := freeChain_length _ _ _
    have hdlen : dir'.length = s.directory.length := List.length_set _ _ _
    have hgd : ∀ k, k ≠ idx → dir'.getD k default = s.directory.getD k default :=
      fun k hk => getD_set_ne (Ne.symm hk)
    have hgidx : dir'.getD idx default = cleared := getD_set_self hidx
    have hclr : cleared.name = [] := rfl
    have hbsData : ∀ b ∈ bs, s.sb.dataStartBlock ≤ b := fun b hb => (hok.mem b hb).1
    have hother : ∀ k bsk, k < s.directory.length → k ≠ idx →
        (s.directory.getD k default).name ≠ [] →
        EntryOk s.sb s.fat (s.directory.getD k default) bsk →
        (∀ b ∈ bsk, b ∉ bs) ∧
          EntryOk s.sb fat' (s.directory.getD k default) bsk := by
      intro k bsk hk hkidx hkact hokk
      have hdisj : ∀ b ∈ bsk, b ∉ bs :=
        hinv.disjointChains k idx bsk bs hk hidx hkidx hkact hact hokk hok
      have hsame : ∀ b ∈ bsk, fat'.getD b 0 = s.fat.getD b 0 := by
        intro b hb
        rw [hfc b, if_neg (hdisj b hb)]
      refine ⟨hdisj, hokk.ne, hokk.head, hokk.len, hokk.sizePos, ?_, hokk.nodup, ?_⟩
      · intro b hb
        rw [hflen]
        exact hokk.mem b hb
      · rw [chainLinked_congr hsame]
        exact hokk.linked
    constructor
    · show fat'.length = s.sb.totalBlocks
      rw [hflen, hinv.fatLen]
    · show dir'.length = MAX_FILES
      rw [hdlen, hinv.dirLen]
    · exact hinv.dataPos
    · exact hinv.totalLt
    · show ∀ i, i < s.sb.dataStartBlock → i < fat'.length → fat'.getD i 0 = FAT_RESERVED
      intro i h1 h2
      rw [hflen] at h2
      rw [hfc i, if_neg fun hi => by have := hbsData i hi; omega]
      exact hinv.reserved i h1 h2
    · show ∀ e ∈ dir', e.name.length ≤ 31
      intro e he
      rcases List.mem_or_eq_of_mem_set he with he' | rfl
      · exact hinv.nameLen e he'
      · simp
    · show ∀ i j, i < dir'.length → j < dir'.length → i ≠ j →
        (dir'.getD i default).name ≠ [] → (dir'.getD j default).name ≠ [] →
        (dir'.getD i default).name = (dir'.getD j default).name →
        (dir'.getD i default).name.length = 31
      intro i j hi hj hij hni hnj heq
      rw [hdlen] at hi hj
      have hii : i ≠ idx := fun h => by
        subst h
        rw [hgidx, hclr] at hni
        exact hni rfl
      have hjj : j ≠ idx := fun h => by
        subst h
        rw [hgidx, hclr] at hnj
        exact hnj rfl
      rw [hgd i hii] at hni heq ⊢
      rw [hgd j hjj] at hnj heq
      exact hinv.nameCol i j hi hj hij hni hnj heq
    · show ∀ i, i < dir'.length → (dir'.getD i default).name ≠ [] →
        ∃ bsx, EntryOk s.sb fat' (dir'.getD i default) bsx
      intro i hi hni
      rw [hdlen] at hi
      have hii : i ≠ idx := fun h => by
        subst h
        rw [hgidx, hclr] at hni
        exact hni rfl
      rw [hgd i hii] at hni ⊢
      obtain ⟨bsi, hoki⟩ := hinv.chains i hi hni
      exact ⟨bsi, (hother i bsi hi hii hni hoki).2⟩
    · show ∀ i j bsi bsj, i < dir'.length → j < dir'.length → i ≠ j →
        (dir'.getD i default).name ≠ [] → (dir'.getD j default).name ≠ [] →
        EntryOk s.sb fat' (dir'.getD i default) bsi →
        EntryOk s.sb fat' (dir'.getD j default) bsj →
        ∀ b ∈ bsi, b ∉ bsj
      intro i j bsi bsj hi hj hij hni hnj hoki hokj
      rw [hdlen] at hi hj
      have hii : i ≠ idx := fun h => by
        subst h
        rw [hgidx, hclr] at hni
        exact hni rfl
      have hjj : j ≠ idx := fun h => by
        subst h
        rw [hgidx, hclr] at hnj
        exact hnj rfl
      rw [hgd i hii] at hni hoki
      rw [hgd j hjj] at hnj hokj
      obtain ⟨bsi0, hoki0⟩ := hinv.chains i hi hni
      obtain ⟨bsj0, hokj0⟩ := hinv.chains j hj hnj
      have hei : bsi = bsi0 := entryOk_unique hoki (hother i bsi0 hi hii hni hoki0).2
      have hej : bsj = bsj0 := entryOk_unique hokj (hother j bsj0 hj hjj hnj hokj0).2
      subst hei hej
      exact hinv.disjointChains i j bsi bsj hi hj hij hni hnj hoki0 hokj0
    · show ∀ b, s.sb.dataStartBlock ≤ b → b < fat'.length → fat'.getD b 0 ≠ FAT_FREE →
        ∃ i bsx, i < dir'.length ∧ (dir'.getD i default).name ≠ [] ∧
          EntryOk s.sb fat' (dir'.getD i default) bsx ∧ b ∈ bsx
      intro b hb1 hb2 hb3
      rw [hflen] at hb2
      rw [hfc b] at hb3
      by_cases hbbs : b ∈ bs
      · rw [if_pos hbbs] at hb3
        exact absurd rfl hb3
      · rw [if_neg hbbs] at hb3
        obtain ⟨j, bsj, hj, hjact, hokj, hbj⟩ := hinv.cover b hb1 hb2 hb3
        have hjj : j ≠ idx := by
          intro h
          subst h
          have heq2 := entryOk_unique hokj hok
          subst heq2
          exact hbbs hbj
        refine ⟨j, bsj, by rwa [hdlen], ?_, ?_, hbj⟩
        · rw [hgd j hjj]
          exact hjact
        · rw [hgd j hjj]
          exact (hother j bsj hj hjj hjact hokj).2

/-! ### Shapes of `copyFromHost` results -/

theorem copyFromHost_name_exists {s : VFS} {fname : List Nat} {hd : Option (List Nat)}
    {now : Int} {i : Nat} (h : findDirectoryEntry s.directory fname = some i) :
    copyFromHost s fname hd now = (s, some .nameExists) := by
  unfold copyFromHost
  rw [h]
  rfl

theorem copyFromHost_dir_full {s : VFS} {fname : List Nat} {hd : Option (List Nat)}
    {now : Int} (h1 : findDirectoryEntry s.directory fname = none)
    (h2 : findFreeSlot s.directory = none) :
    copyFromHost s fname hd now = (s, some .dirFull) := by
  unfold copyFromHost
  rw [h1, h2]
  rfl

theorem copyFromHost_cant_open {s : VFS} {fname : List Nat} {now : Int} {slot : Nat}
    (h1 : findDirectoryEntry s.directory fname = none)
    (h2 : findFreeSlot s.directory = some slot) :
    copyFromHost s fname none now = (s, some .cantOpen) := by
  unfold copyFromHost
  rw [h1, h2]
  rfl

theorem copyFromHost_empty {s : VFS} {fname bytes : List Nat} {now : Int} {slot : Nat}
    (h1 : findDirectoryEntry s.directory fname = none)
    (h2 : findFreeSlot s.directory = some slot) (h3 : bytes.length = 0) :
    copyFromHost s fname (some bytes) now = (s, some .emptyHost) := by
  unfold copyFromHost
  rw [h1, h2]
  simp only [Option.isSome_none, Bool.false_eq_true, if_false, h3, if_pos]

theorem copyFromHost_no_space {s : VFS} {fname bytes : List Nat} {now : Int} {slot : Nat}
    (h1 : findDirectoryEntry s.directory fname = none)
    (h2 : findFreeSlot s.directory = some slot) (h3 : bytes.length ≠ 0)
    (h4 : (findFreeBlocks s.fat s.sb.dataStartBlock
        (((bytes.length + BLOCK_SIZE - 1) / BLOCK_SIZE) % 2 ^ 32)).length ≠
      ((bytes.length + BLOCK_SIZE - 1) / BLOCK_SIZE) % 2 ^ 32) :
    copyFromHost s fname (some bytes) now = (s, some .noSpace) := by
  unfold copyFromHost
  rw [h1, h2]
  simp only [Option.isSome_none, Bool.false_eq_true, if_false, if_neg h3, if_pos h4]

theorem copyFromHost_success {s : VFS} {fname bytes : List Nat} {now : Int} {slot : Nat}
    (h1 : findDirectoryEntry s.directory fname = none)
    (h2 : findFreeSlot s.directory = some slot) (h3 : bytes.length ≠ 0)
    (h4 : (findFreeBlocks s.fat s.sb.dataStartBlock
        (((bytes.length + BLOCK_SIZE - 1) / BLOCK_SIZE) % 2 ^ 32)).length =
      ((bytes.length + BLOCK_SIZE - 1) / BLOCK_SIZE) % 2 ^ 32) :
    copyFromHost s fname (some bytes) now =
      ({ sb := s.sb
         directory := s.directory.set slot
           { name := fname.take 31, size := bytes.length, created := now, type := 70,
             firstBlock := (findFreeBlocks s.fat s.sb.dataStartBlock
               (((bytes.length + BLOCK_SIZE - 1) / BLOCK_SIZE) % 2 ^ 32)).headD 0 }
         fat := linkChain s.fat (findFreeBlocks s.fat s.sb.dataStartBlock
           (((bytes.length + BLOCK_SIZE - 1) / BLOCK_SIZE) % 2 ^ 32))
         diskDirectory := s.directory.set slot
           { name := fname.take 31, size := bytes.length, created := now, type := 70,
             firstBlock := (findFreeBlocks s.fat s.sb.dataStartBlock
               (((bytes.length + BLOCK_SIZE - 1) / BLOCK_SIZE) % 2 ^ 32)).headD 0 }
         diskFat := linkChain s.fat (findFreeBlocks s.fat s.sb.dataStartBlock
           (((bytes.length + BLOCK_SIZE - 1) / BLOCK_SIZE) % 2 ^ 32))
         data := writeData s.data (findFreeBlocks s.fat s.sb.dataStartBlock
           (((bytes.length + BLOCK_SIZE - 1) / BLOCK_SIZE) % 2 ^ 32)) bytes }, none) := by
  have h5 : ¬((findFreeBlocks s.fat s.sb.dataStartBlock
      (((bytes.length + BLOCK_SIZE - 1) / BLOCK_SIZE) % 2 ^ 32)).length ≠
        ((bytes.length + BLOCK_SIZE - 1) / BLOCK_SIZE) % 2 ^ 32) := by
    rw [h4]
    exact fun h => h rfl
  unfold copyFromHost
  rw [h1, h2]
  simp only [Option.isSome_none, Bool.false_eq_true, if_false, if_neg h3, if_neg h5]

/-! ### The invariant is preserved by `copyFromHost` -/

theorem getD_mem {α : Type} {l : List α} {k : Nat} (h : k < l.length) (d : α) :
    l.getD k d ∈ l := by
  rw [List.getD_eq_getElem?_getD, List.getElem?_eq_getElem h]
  exact List.getElem_mem h

theorem take31_ne_nil {fname : List Nat} (hn : fname ≠ []) : fname.take 31 ≠ [] := by
  intro h
  rcases List.take_eq_nil_iff.1 h with h31 | hf
  · omega
  · exact hn hf

theorem vfsInv_put {s : VFS} (hinv : VfsInv s) (fname bytes : List Nat) (now : Int)
    (hn : fname ≠ [])
    (hub : ((bytes.length + BLOCK_SIZE - 1) / BLOCK_SIZE) % 2 ^ 32 ≠ 0) :
    VfsInv (copyFromHost s fname (some bytes) now).1 := by
  cases hfind : findDirectoryEntry s.directory fname with
  | some i => rw [copyFromHost_name_exists hfind]; exact hinv
  | none =>
  cases hslot : findFreeSlot s.directory with
  | none => rw [copyFromHost_dir_full hfind hslot]; exact hinv
  | some slot =>
  by_cases hz : bytes.length = 0
  · rw [copyFromHost_empty hfind hslot hz]; exact hinv
  by_cases hbl : (findFreeBlocks s.fat s.sb.dataStartBlock
      (((bytes.length + BLOCK_SIZE - 1) / BLOCK_SIZE) % 2 ^ 32)).length =
    ((bytes.length + BLOCK_SIZE - 1) / BLOCK_SIZE) % 2 ^ 32
  case neg => rw [copyFromHost_no_space hfind hslot hz hbl]; exact hinv
  case pos =>
  rw [copyFromHost_success hfind hslot hz hbl]
  have hB : BLOCK_SIZE = 512 := rfl
  obtain ⟨hslt, hsempty, -⟩ := findSlotIdx_some hslot
  set needed := ((bytes.length + BLOCK_SIZE - 1) / BLOCK_SIZE) % 2 ^ 32 with hneeded
  set blocks := findFreeBlocks s.fat s.sb.dataStartBlock needed with hblocks
  set newEntry : DirEntry :=
    { name := fname.take 31, size := bytes.length, created := now, type := 70,
      firstBlock := blocks.headD 0 } with hnew
  set dir' := s.directory.set slot newEntry with hdir'
  set fat' := linkChain s.fat blocks with hfat'
  have hnodup : blocks.Nodup := findFreeBlocks_nodup s.fat s.sb.dataStartBlock needed
  have hmem : ∀ b ∈ blocks,
      s.sb.dataStartBlock ≤ b ∧ b < s.fat.length ∧ s.fat.getD b 0 = FAT_FREE :=
    fun b hb => findFreeBlocks_subset hb
  have hpos : 1 ≤ needed := by
    rw [hneeded]
    exact Nat.pos_of_ne_zero hub
  have hnee : blocks ≠ [] := by
    intro h
    rw [h] at hbl
    simp at hbl
    omega
  have hflen : fat'.length = s.fat.length := linkChain_length _ _
  have hfgd : ∀ j, j ∉ blocks → fat'.getD j 0 = s.fat.getD j 0 :=
    fun j hj => linkChain_getD_not_mem hj
  have hlinked : chainLinked fat' blocks = true :=
    linkChain_linked hnodup fun b hb => (hmem b hb).2.1
  have hokNew : EntryOk s.sb fat' newEntry blocks := by
    refine ⟨hnee, rfl, ?_, by rw [hnew]; simpa using Nat.pos_of_ne_zero hz, ?_, hnodup,
      hlinked⟩
    · rw [hnew]
      exact hbl
    · intro b hb
      rw [hflen]
      exact ⟨(hmem b hb).1, (hmem b hb).2.1⟩
  have hdlen : dir'.length = s.directory.length := List.length_set _ _ _
  have hgd : ∀ k, k ≠ slot → dir'.getD k default = s.directory.getD k default :=
    fun k hk => getD_set_ne (Ne.symm hk)
  have hgslot : dir'.getD slot default = newEntry := getD_set_self hslt
  have hnameNew : newEntry.name ≠ [] := take31_ne_nil hn
  have hfresh : ∀ k, k < s.directory.length → (s.directory.getD k default).name ≠ [] →
      fname ≠ (s.directory.getD k default).name := by
    intro k hk hkact
    rcases findEntryIdx_none.1 hfind _ (getD_mem hk default) with h | h
    · exact absurd h hkact
    · exact h
  have hold : ∀ k bsk, k < s.directory.length → (s.directory.getD k default).name ≠ [] →
      EntryOk s.sb s.fat (s.directory.getD k default) bsk →
      (∀ b ∈ bsk, b ∉ blocks) ∧ EntryOk s.sb fat' (s.directory.getD k default) bsk := by
    intro k bsk hk hkact hokk
    have hdisj : ∀ b ∈ bsk, b ∉ blocks := by
      intro b hb hbblocks
      exact (entryOk_val hokk hinv.dataPos b hb).1 (hmem b hbblocks).2.2
    have hsame : ∀ b ∈ bsk, fat'.getD b 0 = s.fat.getD b 0 :=
      fun b hb => hfgd b (hdisj b hb)
    refine ⟨hdisj, hokk.ne, hokk.head, hokk.len, hokk.sizePos, ?_, hokk.nodup, ?_⟩
    · intro b hb
      rw [hflen]
      exact hokk.mem b hb
    · rw [chainLinked_congr hsame]
      exact hokk.linked
  have htake31 : ∀ k, k < s.directory.length → (s.directory.getD k default).name ≠ [] →
      (s.directory.getD k default).name = fname.take 31 → (fname.take 31).length = 31 := by
    intro k hk hkact heq
    by_cases hfl : fname.length ≤ 31
    · rw [List.take_of_length_le hfl] at heq
      exact absurd heq.symm (hfresh k hk hkact)
    · rw [List.length_take]
      omega
  constructor
  · show fat'.length = s.sb.totalBlocks
    rw [hflen, hinv.fatLen]
  · show dir'.length = MAX_FILES
    rw [hdlen, hinv.dirLen]
  · exact hinv.dataPos
  · exact hinv.totalLt
  · show ∀ i, i < s.sb.dataStartBlock → i < fat'.length → fat'.getD i 0 = FAT_RESERVED
    intro i h1 h2
    rw [hflen] at h2
    rw [hfgd i fun hi => by have := (hmem i hi).1; omega]
    exact hinv.reserved i h1 h2
  · show ∀ e ∈ dir', e.name.length ≤ 31
    intro e he
    rcases List.mem_or_eq_of_mem_set he with he' | rfl
    · exact hinv.nameLen e he'
    · rw [hnew]
      simp [List.length_take]
  · show ∀ i j, i < dir'.length → j < dir'.length → i ≠ j →
      (dir'.getD i default).name ≠ [] → (dir'.getD j default).name ≠ [] →
      (dir'.getD i default).name = (dir'.getD j default).name →
      (dir'.getD i default).name.length = 31
    intro i j hi hj hij hni hnj heq
    rw [hdlen] at hi hj
    by_cases hii : i = slot
    · have hjj : j ≠ slot := fun h => hij (hii.trans h.symm)
      rw [hii, hgslot] at heq ⊢
      rw [hgd j hjj] at heq hnj
      exact htake31 j hj hnj heq.symm
    · rw [hgd i hii] at hni heq ⊢
      by_cases hjj : j = slot
      · rw [hjj, hgslot] at heq
        rw [heq]
        exact htake31 i hi hni heq
      · rw [hgd j hjj] at hnj heq
        exact hinv.nameCol i j hi hj hij hni hnj heq
  · show ∀ i, i < dir'.length → (dir'.getD i default).name ≠ [] →
      ∃ bsx, EntryOk s.sb fat' (dir'.getD i default) bsx
    intro i hi hni
    rw [hdlen] at hi
    by_cases hii : i = slot
    · rw [hii, hgslot]
      exact ⟨blocks, hokNew⟩
    · rw [hgd i hii] at hni ⊢
      obtain ⟨bsi, hoki⟩ := hinv.chains i hi hni
      exact ⟨bsi, (hold i bsi hi hni hoki).2⟩
  · show ∀ i j bsi bsj, i < dir'.length → j < dir'.length → i ≠ j →
      (dir'.getD i default).name ≠ [] → (dir'.getD j default).name ≠ [] →
      EntryOk s.sb fat' (dir'.getD i default) bsi →
      EntryOk s.sb fat' (dir'.getD j default) bsj →
      ∀ b ∈ bsi, b ∉ bsj
    intro i j bsi bsj hi hj hij hni hnj hoki hokj
    rw [hdlen] at hi hj
    by_cases hii : i = slot
    · rw [hii, hgslot] at hoki
      have hbi : bsi = blocks := entryOk_unique hoki hokNew
      subst hbi
      have hjj : j ≠ slot := fun h => hij (hii.trans h.symm)
      rw [hgd j hjj] at hnj hokj
      obtain ⟨bsj0, hokj0⟩ := hinv.chains j hj hnj
      have hbj : bsj = bsj0 := entryOk_unique hokj (hold j bsj0 hj hnj hokj0).2
      subst hbj
      intro b hb hbj
      exact (hold j bsj hj hnj hokj0).1 b hbj hb
    · rw [hgd i hii] at hni hoki
      obtain ⟨bsi0, hoki0⟩ := hinv.chains i hi hni
      have hbi : bsi = bsi0 := entryOk_unique hoki (hold i bsi0 hi hni hoki0).2
      subst hbi
      by_cases hjj : j = slot
      · rw [hjj, hgslot] at hokj
        have hbj : bsj = blocks := entryOk_unique hokj hokNew
        subst hbj
        exact fun b hb => (hold i bsi hi hni hoki0).1 b hb
      · rw [hgd j hjj] at hnj hokj
        obtain ⟨bsj0, hokj0⟩ := hinv.chains j hj hnj
        have hbj : bsj = bsj0 := entryOk_unique hokj (hold j bsj0 hj hnj hokj0).2
        subst hbj
        exact hinv.disjointChains i j bsi bsj hi hj hij hni hnj hoki0 hokj0
  · show ∀ b, s.sb.dataStartBlock ≤ b → b < fat'.length → fat'.getD b 0 ≠ FAT_FREE →
      ∃ i bsx, i < dir'.length ∧ (dir'.getD i default).name ≠ [] ∧
        EntryOk s.sb fat' (dir'.getD i default) bsx ∧ b ∈ bsx
    intro b hb1 hb2 hb3
    rw [hflen] at hb2
    by_cases hbb : b ∈ blocks
    · refine ⟨slot, blocks, by rwa [hdlen], ?_, ?_, hbb⟩
      · rw [hgslot]
        exact hnameNew
      · rw [hgslot]
        exact hokNew
    · rw [hfgd b hbb] at hb3
      obtain ⟨j, bsj, hj, hjact, hokj, hbj⟩ := hinv.cover b hb1 hb2 hb3
      have hjj : j ≠ slot := by
        intro h
        subst h
        rw [hsempty] at hjact
        exact hjact rfl
      refine ⟨j, bsj, by rwa [hdlen], ?_, ?_, hbj⟩
      · rw [hgd j hjj]
        exact hjact
      · rw [hgd j hjj]
        exact (hold j bsj hj hjact hokj).2

/-! ### Every reachable state satisfies the invariant -/

theorem vfsInv_reach {s : VFS} (h : Reach s) : VfsInv s := by
  induction h with
  | create d hsz => exact vfsInv_create d hsz
  | put fname bytes now hs hn hz hub ih => exact vfsInv_put ih fname bytes now hn hub
  | del nm hs ih => exact vfsInv_delete ih nm

/-- Under the invariant, the canonical walk `chainOf` of an active entry is
its well-formed chain. -/
theorem chainOf_entryOk {s : VFS} (hinv : VfsInv s) {i : Nat}
    (hi : i < s.directory.length) (hact : (s.directory.getD i default).name ≠ []) :
    EntryOk s.sb s.fat (s.directory.getD i default) (chainOf s i) := by
  obtain ⟨bs, hok⟩ := hinv.chains i hi hact
  have hblt : ∀ b ∈ bs, b < s.fat.length := fun b hb => (hok.mem b hb).2
  have heq : chainOf s i = bs := by
    rw [chainOf, ← hok.head]
    exact chainList_eq hok.linked hblt hok.ne (nodup_length_le hok.nodup hblt)
  rw [heq]
  exact hok

/-! ### Conservation of blocks -/

theorem conservation {s : VFS} (hinv : VfsInv s) :
    countFatVal s FAT_FREE + sumChainLengths s + countFatVal s FAT_RESERVED =
      s.sb.totalBlocks := by
  classical
  set n := s.fat.length with hn
  set v : Nat → Int := fun i => s.fat.getD i 0 with hv
  have h1 : ((Finset.range n).filter fun i => v i = FAT_FREE).card +
      ((Finset.range n).filter fun i => ¬v i = FAT_FREE).card = n := by
    rw [Finset.filter_card_add_filter_neg_card_eq_card, Finset.card_range]
  have h2 : (((Finset.range n).filter fun i => ¬v i = FAT_FREE).filter
        fun i => v i = FAT_RESERVED).card +
      (((Finset.range n).filter fun i => ¬v i = FAT_FREE).filter
        fun i => ¬v i = FAT_RESERVED).card =
      ((Finset.range n).filter fun i => ¬v i = FAT_FREE).card := by
    rw [Finset.filter_card_add_filter_neg_card_eq_card]
  have hR : ((Finset.range n).filter fun i => ¬v i = FAT_FREE).filter
      (fun i => v i = FAT_RESERVED) = (Finset.range n).filter fun i => v i = FAT_RESERVED := by
    rw [Finset.filter_filter]
    apply Finset.filter_congr
    intro i hi
    constructor
    · exact fun h => h.2
    · intro h
      refine ⟨?_, h⟩
      rw [h]
      simp only [FAT_RESERVED, FAT_FREE]
      omega
  set U := ((Finset.range n).filter fun i => ¬v i = FAT_FREE).filter
    (fun i => ¬v i = FAT_RESERVED) with hU
  have hcanon : ∀ i, i < s.directory.length → (s.directory.getD i default).name ≠ [] →
      EntryOk s.sb s.fat (s.directory.getD i default) (chainOf s i) :=
    fun i hi hact => chainOf_entryOk hinv hi hact
  have hUmem : ∀ b, b ∈ U ↔ b < n ∧ ¬v b = FAT_FREE ∧ ¬v b = FAT_RESERVED := by
    intro b
    rw [hU]
    simp only [Finset.mem_filter, Finset.mem_range]
    tauto
  have hUeq : U = (activeIdx s).biUnion fun i => (chainOf s i).toFinset := by
    apply Finset.ext
    intro b
    rw [hUmem b]
    simp only [Finset.mem_biUnion, activeIdx, Finset.mem_filter, Finset.mem_range,
      List.mem_toFinset]
    constructor
    · rintro ⟨hbn, hfree, hres⟩
      have hds : s.sb.dataStartBlock ≤ b := by
        by_contra hlt
        exact hres (hinv.reserved b (by omega) hbn)
      obtain ⟨i, bs, hi, hact, hok, hbbs⟩ := hinv.cover b hds hbn hfree
      have : bs = chainOf s i := entryOk_unique hok (hcanon i hi hact)
      exact ⟨i, ⟨hi, hact⟩, this ▸ hbbs⟩
    · rintro ⟨i, ⟨hi, hact⟩, hb⟩
      have hok := hcanon i hi hact
      refine ⟨(hok.mem b hb).2, ?_, ?_⟩
      · exact (entryOk_val hok hinv.dataPos b hb).1
      · exact (entryOk_val hok hinv.dataPos b hb).2
  have hdisj : ∀ x ∈ activeIdx s, ∀ y ∈ activeIdx s, x ≠ y →
      Disjoint ((chainOf s x).toFinset) ((chainOf s y).toFinset) := by
    intro x hx y hy hxy
    simp only [activeIdx, Finset.mem_filter, Finset.mem_range] at hx hy
    rw [Finset.disjoint_left]
    intro a ha hay
    rw [List.mem_toFinset] at ha hay
    exact hinv.disjointChains x y _ _ hx.1 hy.1 hxy hx.2 hy.2
      (hcanon x hx.1 hx.2) (hcanon y hy.1 hy.2) a ha hay
  have hcardU : U.card = sumChainLengths s := by
    rw [hUeq, Finset.card_biUnion hdisj, sumChainLengths]
    apply Finset.sum_congr rfl
    intro i hi
    simp only [activeIdx, Finset.mem_filter, Finset.mem_range] at hi
    exact List.toFinset_card_of_nodup (hcanon i hi.1 hi.2).nodup
  have hcF : countFatVal s FAT_FREE = ((Finset.range n).filter fun i => v i = FAT_FREE).card :=
    rfl
  have hcR : countFatVal s FAT_RESERVED =
      ((Finset.range n).filter fun i => v i = FAT_RESERVED).card := rfl
  rw [hcF, hcR, ← hR, ← hinv.fatLen, ← hn]
  omega

/-! ### The written data blocks read back as the original bytes -/

theorem writeData_not_mem {store : Nat → List Nat} {bs bytes : List Nat} {b : Nat}
    (h : b ∉ bs) : writeData store bs bytes b = store b := by
  induction bs generalizing store bytes with
  | nil => rfl
  | cons c rest ih =>
    have hcb : c ≠ b := fun hcb => h (by simp [hcb])
    rw [writeData, ih fun hb => h (by simp [hb])]
    exact Function.update_noteq (Ne.symm hcb) _ _

theorem padBlock_take {chunk : List Nat} {m : Nat} (h : m ≤ chunk.length) :
    (padBlock chunk).take m = chunk.take m := by
  rw [padBlock, List.take_append_of_le_length h]

theorem exportLoop_stop {fat : List Int} {store : Nat → List Nat} {blk : Int}
    {remaining : Nat} (h : blk = FAT_EOF ∨ remaining = 0) (fuel : Nat) :
    exportLoop fat store blk remaining fuel = [] := by
  cases fuel with
  | zero => rfl
  | succ fuel => simp [exportLoop, h]

theorem exportLoop_writeData (bs : List Nat) :
    ∀ (fat : List Int) (store : Nat → List Nat) (bytes : List Nat) (fuel : Nat),
      chainLinked fat bs = true → bs.Nodup → (∀ b ∈ bs, b < fat.length) →
      BLOCK_SIZE * (bs.length - 1) < bytes.length →
      bytes.length ≤ BLOCK_SIZE * bs.length → bs.length ≤ fuel →
      exportLoop fat (writeData store bs bytes) ((bs.headD 0 : Nat) : Int)
        bytes.length fuel = bytes := by
  have hB : BLOCK_SIZE = 512 := rfl
  induction bs with
  | nil =>
    intro fat store bytes fuel _ _ _ hlo hhi _
    simp only [List.length_nil] at hlo hhi
    omega
  | cons b rest ih =>
    intro fat store bytes fuel hlink hnd hlt hlo hhi hfuel
    cases fuel with
    | zero => simp at hfuel
    | succ fuel =>
      simp only [List.length_cons, hB] at hlo hhi
      have hb : b < fat.length := hlt b (by simp)
      have hLpos : 0 < bytes.length := by omega
      have hguard : ¬((b : Int) = FAT_EOF ∨ bytes.length = 0) := by
        rintro (h | h)
        · simp only [FAT_EOF] at h
          omega
        · omega
      rw [List.headD_cons, exportLoop, if_neg hguard]
      have htn : ((b : Int)).toNat = b := rfl
      have hnbneg : ¬((b : Int) < 0) := by omega
      rw [htn, if_neg hnbneg]
      dsimp only
      have hbd : fat.getD b FAT_EOF = fat.getD b 0 := getD_default_eq hb _ _
      have hbn : b ∉ rest := (List.nodup_cons.1 hnd).1
      have hstore : writeData store (b :: rest) bytes b =
          padBlock (bytes.take BLOCK_SIZE) := by
        rw [writeData, writeData_not_mem hbn]
        exact Function.update_same _ _ _
      cases rest with
      | nil =>
        have hle : bytes.length ≤ BLOCK_SIZE := by rw [hB]; simp at hhi; omega
        have htr : min BLOCK_SIZE bytes.length = bytes.length := by rw [hB]; omega
        simp only [chainLinked, beq_iff_eq] at hlink
        rw [hstore, htr, hbd, hlink]
        rw [List.take_of_length_le hle, padBlock_take (le_refl _), List.take_length]
        rw [exportLoop_stop (Or.inr (by omega)) fuel, List.append_nil]
      | cons c rest' =>
        have hgt : BLOCK_SIZE < bytes.length := by
          rw [hB]
          simp only [List.length_cons] at hlo
          omega
        have htr : min BLOCK_SIZE bytes.length = BLOCK_SIZE := by rw [hB]; omega
        simp only [chainLinked, Bool.and_eq_true, beq_iff_eq] at hlink
        rw [hstore, htr, hbd, hlink.1]
        have htake : (padBlock (bytes.take BLOCK_SIZE)).take BLOCK_SIZE =
            bytes.take BLOCK_SIZE := by
          rw [padBlock_take (by rw [List.length_take]; omega), List.take_take, min_self]
        rw [htake]
        have hwrite : writeData store (b :: c :: rest') bytes =
            writeData (Function.update store b (padBlock (bytes.take BLOCK_SIZE)))
              (c :: rest') (bytes.drop BLOCK_SIZE) := rfl
        have hdlen : (bytes.drop BLOCK_SIZE).length = bytes.length - BLOCK_SIZE := by
          rw [List.length_drop]
        have hrec := ih fat (Function.update store b (padBlock (bytes.take BLOCK_SIZE)))
          (bytes.drop BLOCK_SIZE) fuel hlink.2 (List.nodup_cons.1 hnd).2
          (fun x hx => hlt x (by simp [hx]))
          (by
            simp only [hdlen, List.length_cons, hB] at *
            omega)
          (by
            simp only [hdlen, List.length_cons, hB] at *
            omega)
          (by
            simp only [List.length_cons] at hfuel ⊢
            omega)
        rw [List.headD_cons] at hrec
        rw [hwrite, ← hdlen, hrec]
        exact List.take_append_drop _ _

/-! ### Characterization of the magic check -/

theorem strncmp_eq_zero_iff :
    ∀ (n : Nat) (xs ys : List Nat), (∀ y ∈ ys.take n, y ≠ 0) →
      n ≤ xs.length → n ≤ ys.length →
      (strncmp xs ys n = 0 ↔ xs.take n = ys.take n) := by
  intro n
  induction n with
  | zero =>
    intro xs ys _ _ _
    simp [strncmp]
  | succ n ih =>
    intro xs ys hnz hx hy
    rcases xs with _ | ⟨a, as⟩
    · simp at hx
    rcases ys with _ | ⟨b, bs⟩
    · simp at hy
    have hb0 : b ≠ 0 := hnz b (by simp [List.take])
    by_cases hab : a = b
    · subst hab
      rw [strncmp, if_neg (by simp), if_neg hb0]
      rw [ih as bs (fun y hyy => hnz y (by simp [List.take, hyy]))
        (by simpa using hx) (by simpa using hy)]
      simp [List.take]
    · rw [strncmp, if_pos hab]
      constructor
      · intro hz
        have : a = b := by omega
        exact absurd this hab
      · intro ht
        simp only [List.take, List.cons.injEq] at ht
        exact absurd ht.1 hab

theorem superblockMagicOk_iff {stored : List Nat} (h : stored.length = 8) :
    superblockMagicOk stored = true ↔ stored.take 7 = [84, 84, 118, 102, 115, 48, 49] := by
  have h7 : cstrlen FS_NAME = 7 := rfl
  rw [superblockMagicOk, h7, beq_iff_eq]
  rw [strncmp_eq_zero_iff 7 stored FS_NAME (by decide) (by omega) (by decide)]
  have hf : FS_NAME.take 7 = [84, 84, 118, 102, 115, 48, 49] := rfl
  rw [hf]

/-! ### Correctness of the coalescing loop of `showMap` -/

theorem range'_succ_cons (i k : Nat) : List.range' i (k + 1) = i :: List.range' (i + 1) k :=
  rfl

theorem rangesAux_ok (f : Nat → BlockClass) :
    ∀ (k i start : Nat) (curr : BlockClass), 1 ≤ i → start < i →
      (∀ j, start ≤ j → j < i → f j = curr) →
      RangesOk f (i + k) start (rangesAux f (i + k) start curr (List.range' i k)) := by
  intro k
  induction k with
  | zero =>
    intro i start curr hi hsi hhom
    show RangesOk f (i + 0) start [(start, i + 0 - 1, curr)]
    refine RangesOk.last start (i + 0 - 1) curr (by omega) (by omega) ?_
    intro j h1 h2
    exact hhom j h1 (by omega)
  | succ k ih =>
    intro i start curr hi hsi hhom
    rw [range'_succ_cons]
    by_cases hcur : f i = curr
    · rw [rangesAux, if_pos hcur]
      have := ih (i + 1) start curr (by omega) (by omega)
        (fun j h1 h2 => by
          rcases Nat.lt_or_ge j i with hj | hj
          · exact hhom j h1 hj
          · have : j = i := by omega
            rw [this, hcur])
      have harith : i + 1 + k = i + (k + 1) := by omega
      rwa [harith] at this
    · rw [rangesAux, if_neg hcur]
      refine RangesOk.cons start (i - 1) curr _ (by omega) (by omega) ?_ ?_ ?_
      · intro j h1 h2
        exact hhom j h1 (by omega)
      · have : i - 1 + 1 = i := by omega
        rw [this]
        exact hcur
      · have harith : i - 1 + 1 = i := by omega
        rw [harith]
        have := ih (i + 1) i (f i) (by omega) (by omega)
          (fun j h1 h2 => by
            have : j = i := by omega
            rw [this])
        have harith2 : i + 1 + k = i + (k + 1) := by omega
        rwa [harith2] at this

theorem showMapRanges_ok (s : VFS) (h : 1 ≤ s.sb.totalBlocks) :
    RangesOk (describeBlock s) s.sb.totalBlocks 0 (showMapRanges s) := by
  rw [showMapRanges, drop_range_eq]
  have := rangesAux_ok (describeBlock s) (s.sb.totalBlocks - 1) 1 0 (describeBlock s 0)
    (by omega) (by omega)
    (fun j h1 h2 => by
      have : j = 0 := by omega
      rw [this])
  have harith : 1 + (s.sb.totalBlocks - 1) = s.sb.totalBlocks := by omega
  rwa [harith] at this

/-! ### The export loop performs at most `ceil(size / blockSize)` iterations -/

theorem exportLoopIters_le :
    ∀ (fuel : Nat) (fat : List Int) (blk : Int) (remaining : Nat),
      exportLoopIters fat blk remaining fuel ≤
        (remaining + BLOCK_SIZE - 1) / BLOCK_SIZE := by
  have hB : BLOCK_SIZE = 512 := rfl
  intro fuel
  induction fuel with
  | zero => intro fat blk remaining; exact Nat.zero_le _
  | succ fuel ih =>
    intro fat blk remaining
    by_cases hg : blk = FAT_EOF ∨ remaining = 0
    · rw [exportLoopIters, if_pos hg]
      exact Nat.zero_le _
    · rw [exportLoopIters, if_neg hg]
      dsimp only
      have hrem : 0 < remaining := by
        rcases Nat.eq_zero_or_pos remaining with h0 | h0
        · exact absurd (Or.inr h0) hg
        · exact h0
      have := ih fat (if blk < 0 then FAT_EOF else fat.getD blk.toNat FAT_EOF)
        (remaining - min BLOCK_SIZE remaining)
      rw [hB] at this ⊢
      omega

/-! ## The claims -/

/-- C10: for every directory entry and every allocation-table contents (even a
corrupt FAT containing cycles), the export loop of `copyToHost` terminates
after at most `ceil(size / blockSize)` iterations — the remaining-byte counter
decreases by `min(BLOCK_SIZE, remaining) ≥ 1` on every iteration while it is
positive, which bounds the iteration count by `ceil(size / BLOCK_SIZE)`
regardless of the FAT contents and for every unrolling depth. -/
theorem C10_export_loop_iters (s : VFS) (idx : Nat) (fuel : Nat) :
    exportLoopIters s.fat ((s.directory.getD idx default).firstBlock : Int)
        (s.directory.getD idx default).size fuel ≤
      ((s.directory.getD idx default).size + BLOCK_SIZE - 1) / BLOCK_SIZE :=
  exportLoopIters_le fuel s.fat _ _

/-- C4: whenever `copyFromHost` returns failure (name conflict, no free
directory slot, unreadable or empty source, or insufficient free blocks), the
resulting state — in-memory directory and FAT, the persisted directory and FAT
regions, and the data blocks — is identical to the state at the start of the
call. -/
theorem C4_failed_import_unchanged (s : VFS) (fname : List Nat)
    (hostData : Option (List Nat)) (now : Int) (err : VfsError)
    (h : (copyFromHost s fname hostData now).2 = some err) :
    (copyFromHost s fname hostData now).1 = s := by
  cases hfind : findDirectoryEntry s.directory fname with
  | some i => rw [copyFromHost_name_exists hfind]
  | none =>
    cases hslot : findFreeSlot s.directory with
    | none => rw [copyFromHost_dir_full hfind hslot]
    | some slot =>
      cases hostData with
      | none => rw [copyFromHost_cant_open hfind hslot]
      | some bytes =>
        by_cases hz : bytes.length = 0
        · rw [copyFromHost_empty hfind hslot hz]
        · by_cases hbl : (findFreeBlocks s.fat s.sb.dataStartBlock
              (((bytes.length + BLOCK_SIZE - 1) / BLOCK_SIZE) % 2 ^ 32)).length =
            ((bytes.length + BLOCK_SIZE - 1) / BLOCK_SIZE) % 2 ^ 32
          · rw [copyFromHost_success hfind hslot hz hbl] at h
            simp at h
          · rw [copyFromHost_no_space hfind hslot hz hbl]

/-- Witness for C4: importing an unreadable host file into a fresh volume
fails and leaves the state unchanged. -/
theorem C4_witness :
    (copyFromHost exDisk [97] none 0).2 = some VfsError.cantOpen ∧
      (copyFromHost exDisk [97] none 0).1 = exDisk :=
  ⟨by decide, C4_failed_import_unchanged exDisk [97] none 0 VfsError.cantOpen (by decide)⟩

/-- C8: in a state whose directory holds `MAX_FILES` active entries (the
result of `MAX_FILES` successful imports of distinct names), the next import
of another distinct name fails with the directory-full error and the state —
all prior entries and their block chains — is unchanged. -/
theorem C8_directory_full (s : VFS) (fname : List Nat) (hostData : Option (List Nat))
    (now : Int) (hlen : s.directory.length = MAX_FILES)
    (hcount : s.directory.countP (fun e => !e.name.isEmpty) = MAX_FILES)
    (hfresh : findDirectoryEntry s.directory fname = none) :
    copyFromHost s fname hostData now = (s, some VfsError.dirFull) := by
  have hfull : ∀ e ∈ s.directory, (!e.name.isEmpty) = true :=
    List.countP_eq_length.1 (by rw [hcount, hlen])
  have hnone : findFreeSlot s.directory = none := by
    apply findSlotIdx_none.2
    intro e he
    have := hfull e he
    simpa using this
  exact copyFromHost_dir_full hfresh hnone

/-- Witness for C8: a volume with 64 distinctly named files rejects a 65th
distinct import with the directory-full error, unchanged. -/
theorem C8_witness :
    copyFromHost exFullDir [200] (some [5]) 0 = (exFullDir, some VfsError.dirFull) :=
  C8_directory_full exFullDir [200] (some [5]) 0 (by decide) (by decide) (by decide)

/-- Counterexample for C5: the claim says `deleteFile` never changes a FAT
entry whose value is `RESERVED`.  In `exCorrupt` the file chain's successor
pointer leads into metadata block 1, whose entry is `RESERVED`; deleting the
file sets that entry to `FREE`.  (The loop guard compares the successor
*pointer* against `FAT_RESERVED`, so it stops only after freeing the first
metadata block it entered.) -/
theorem C5_counterexample :
    exCorrupt.fat.getD 1 0 = FAT_RESERVED ∧ (deleteFile exCorrupt [97]).2 = true ∧
      (deleteFile exCorrupt [97]).1.fat.getD 1 0 = FAT_FREE := by
  refine ⟨by decide, by decide, by decide⟩

/-- C5 (amended): the freeing loop stops when the successor *value*
`EOF_MARK` or `RESERVED` is reached.  Consequently, for every allocation-table
contents and fuel, at most one entry whose value is `RESERVED` can be changed
(the first metadata block a corrupt chain enters — freeing it makes the next
pointer `RESERVED`, which stops the loop), and every entry the loop changes is
set to `FREE`. -/
theorem C5_amended (fat : List Int) (blk : Int) (fuel : Nat) (j k : Nat) (hjk : j ≠ k)
    (hj : fat.getD j 0 = FAT_RESERVED) (hk : fat.getD k 0 = FAT_RESERVED) :
    ((freeChain fat blk fuel).getD j 0 = FAT_RESERVED ∨
      (freeChain fat blk fuel).getD k 0 = FAT_RESERVED) ∧
    (∀ i : Nat, (freeChain fat blk fuel).getD i 0 = fat.getD i 0 ∨
      (freeChain fat blk fuel).getD i 0 = FAT_FREE) :=
  ⟨freeChain_reserved_pair fuel fat blk j k hjk hj hk,
    fun i => freeChain_val_or_free fuel fat blk i⟩

/-- Witness for C5 (amended): in the corrupt volume, of the two `RESERVED`
entries 1 and 2, at least one survives the delete. -/
theorem C5_witness :
    ((freeChain exCorrupt.fat 4 6).getD 1 0 = FAT_RESERVED ∨
      (freeChain exCorrupt.fat 4 6).getD 2 0 = FAT_RESERVED) ∧
    (∀ i : Nat, (freeChain exCorrupt.fat 4 6).getD i 0 = exCorrupt.fat.getD i 0 ∨
      (freeChain exCorrupt.fat 4 6).getD i 0 = FAT_FREE) :=
  C5_amended exCorrupt.fat 4 6 1 2 (by decide) (by decide) (by decide)

/-- Counterexample for C6: the claim says any difference in any of the 8 magic
bytes makes the load fail.  A stored tag whose 8th byte is `'X'` (88) instead
of `'\0'` differs from `FS_NAME` yet passes the check, because
`strncmp(..., strlen(FS_NAME))` compares only the first 7 bytes. -/
theorem C6_counterexample :
    superblockMagicOk [84, 84, 118, 102, 115, 48, 49, 88] = true ∧
      [84, 84, 118, 102, 115, 48, 49, 88] ≠ FS_NAME := by
  refine ⟨by decide, by decide⟩

/-- C6 (amended): the magic check of `readSuperblock` (hence the corruption
failure of `loadDisk`) succeeds if and only if the first 7 bytes of the stored
8-byte tag equal `"TTvfs01"`; the 8th byte is ignored. -/
theorem C6_amended {stored : List Nat} (h : stored.length = 8) :
    superblockMagicOk stored = true ↔ stored.take 7 = [84, 84, 118, 102, 115, 48, 49] :=
  superblockMagicOk_iff h

/-- Witness for C6 (amended): the genuine tag passes the check. -/
theorem C6_witness : superblockMagicOk [84, 84, 118, 102, 115, 48, 49, 0] = true :=
  (C6_amended (by decide)).2 (by decide)

/-- C2: in every state reachable from a freshly formatted volume by any
sequence of `createDisk` / `copyFromHost` / `copyToHost` / `deleteFile`
operations (`copyToHost` reads the disk without modifying any state), the
number of FAT entries equal to `FREE`, plus the sum of the chain lengths of
all active directory entries, plus the number of FAT entries equal to
`RESERVED`, equals `totalBlocks`. -/
theorem C2_conservation (s : VFS) (h : Reach s) :
    countFatVal s FAT_FREE + sumChainLengths s + countFatVal s FAT_RESERVED =
      s.sb.totalBlocks :=
  conservation (vfsInv_reach h)

/-- Witness for C2: a 16-block volume holding one 600-byte file
(5 free + 2 in the chain + 9 reserved = 16). -/
theorem C2_witness :
    countFatVal exImported FAT_FREE + sumChainLengths exImported +
        countFatVal exImported FAT_RESERVED = exImported.sb.totalBlocks :=
  C2_conservation exImported
    (Reach.put [97] (List.replicate 600 7) 0 (Reach.create 8192 (by decide)) (by decide)
      (by decide) (by rw [List.length_replicate]; decide))

/-- Counterexample for C3: the claim says every active entry's chain visits
exactly `ceil(size / blockSize)` blocks.  The source truncates the block count
through `static_cast<uint32_t>` (line 242): importing a sparse host file of
`512 * (2^32 + 1)` bytes succeeds (error `none`) with
`blocksNeeded = (2^32 + 1) mod 2^32 = 1`, producing an active entry whose
chain visits a single block while `ceil(size / blockSize) = 2^32 + 1`. -/
theorem C3_counterexample :
    ∃ t : VFS, copyFromHost exDisk [104] (some hugeBytes) 0 = (t, none) ∧
      Reach t ∧ 0 < t.directory.length ∧
      (t.directory.getD 0 default).name ≠ [] ∧
      (chainOf t 0).length = 1 ∧
      ((t.directory.getD 0 default).size + BLOCK_SIZE - 1) / BLOCK_SIZE = 2 ^ 32 + 1 ∧
      (1 : Nat) ≠ 2 ^ 32 + 1 := by
  have hlen : hugeBytes.length = hugeLen := by
    show (List.replicate hugeLen 0).length = hugeLen
    simp
  have hneed : ((hugeBytes.length + BLOCK_SIZE - 1) / BLOCK_SIZE) % 2 ^ 32 = 1 := by
    rw [hlen]
    norm_num [hugeLen, BLOCK_SIZE]
  have hfind : findDirectoryEntry exDisk.directory [104] = none := by decide
  have hslot : findFreeSlot exDisk.directory = some 0 := by decide
  have hz : hugeBytes.length ≠ 0 := by
    rw [hlen]
    norm_num [hugeLen]
  have hbl : (findFreeBlocks exDisk.fat exDisk.sb.dataStartBlock
      (((hugeBytes.length + BLOCK_SIZE - 1) / BLOCK_SIZE) % 2 ^ 32)).length =
      ((hugeBytes.length + BLOCK_SIZE - 1) / BLOCK_SIZE) % 2 ^ 32 := by
    rw [hneed]
    decide
  have hstate := @copyFromHost_success exDisk [104] hugeBytes 0 0 hfind hslot hz hbl
  have hrex : Reach exDisk := Reach.create 8192 (by decide)
  have hput : Reach (copyFromHost exDisk [104] (some hugeBytes) 0).1 :=
    Reach.put [104] hugeBytes 0 hrex (by decide) (by decide) (by rw [hneed]; decide)
  rw [hstate] at hput
  have hdir0 : (exDisk.directory.set 0
      { name := [104].take 31, size := hugeBytes.length, created := 0, type := 70,
        firstBlock := (findFreeBlocks exDisk.fat exDisk.sb.dataStartBlock
          (((hugeBytes.length + BLOCK_SIZE - 1) / BLOCK_SIZE) % 2 ^ 32)).headD 0 }).getD 0 default =
      { name := [104].take 31, size := hugeBytes.length, created := 0, type := 70,
        firstBlock := (findFreeBlocks exDisk.fat exDisk.sb.dataStartBlock
          (((hugeBytes.length + BLOCK_SIZE - 1) / BLOCK_SIZE) % 2 ^ 32)).headD 0 } :=
    getD_set_self (by decide)
  refine ⟨_, hstate, hput, ?_, ?_, ?_, ?_, ?_⟩
  · rw [List.length_set]
    decide
  · rw [hdir0]
    decide
  · simp only [chainOf]
    rw [hneed]
    decide
  · rw [hneed, hlen]
    decide
  · norm_num

/-- C3 (amended): in every reachable state, for every active directory entry,
following FAT successor pointers from `firstBlock` visits exactly
`ceil(size / blockSize) mod 2^32` distinct block indices — the block count
the import actually allocated after the `uint32` cast at line 242 (equal to
`ceil(size / blockSize)` for every file smaller than `2^32` blocks) — all
inside the data region, and the FAT value of the last visited block is
`EOF_MARK`. -/
theorem C3_chain_shape (s : VFS) (h : Reach s) (i : Nat) (hi : i < s.directory.length)
    (hact : (s.directory.getD i default).name ≠ []) :
    (chainOf s i).length =
        (((s.directory.getD i default).size + BLOCK_SIZE - 1) / BLOCK_SIZE) % 2 ^ 32 ∧
      (chainOf s i).Nodup ∧
      (∀ b ∈ chainOf s i, s.sb.dataStartBlock ≤ b ∧ b < s.sb.totalBlocks) ∧
      s.fat.getD ((chainOf s i).getLastD 0) 0 = FAT_EOF := by
  have hinv := vfsInv_reach h
  have hok := chainOf_entryOk hinv hi hact
  refine ⟨hok.len, hok.nodup, ?_, chainLinked_getLast hok.ne hok.linked⟩
  intro b hb
  refine ⟨(hok.mem b hb).1, ?_⟩
  rw [← hinv.fatLen]
  exact (hok.mem b hb).2

set_option maxRecDepth 40000 in
/-- Witness for C3 (amended): the chain of the 600-byte file in `exImported`. -/
theorem C3_witness :
    (chainOf exImported 0).length =
        (((exImported.directory.getD 0 default).size + BLOCK_SIZE - 1) / BLOCK_SIZE) %
          2 ^ 32 ∧
      (chainOf exImported 0).Nodup ∧
      (∀ b ∈ chainOf exImported 0,
        exImported.sb.dataStartBlock ≤ b ∧ b < exImported.sb.totalBlocks) ∧
      exImported.fat.getD ((chainOf exImported 0).getLastD 0) 0 = FAT_EOF :=
  C3_chain_shape exImported
    (Reach.put [97] (List.replicate 600 7) 0 (Reach.create 8192 (by decide)) (by decide)
      (by decide) (by rw [List.length_replicate]; decide))
    0 (by decide) (by decide)

/-- Counterexample for C7: the claim says no reachable state has two active
entries with equal stored names, even when imported base names exceed the
31-byte name field.  `exState2` is reached by importing two host files whose
names differ only in the 32nd character; both are truncated by `strncpy` to
the same 31 stored bytes (the conflict check compares the un-truncated name,
so the second import succeeds). -/
theorem C7_counterexample :
    Reach exState2 ∧ (exState2.directory.getD 0 default).name ≠ [] ∧
      (exState2.directory.getD 1 default).name ≠ [] ∧
      (exState2.directory.getD 0 default).name = (exState2.directory.getD 1 default).name :=
  ⟨Reach.put exName2 [2] 0
      (Reach.put exName1 [1] 0 (Reach.create 8192 (by decide)) (by decide) (by decide)
        (by decide))
      (by decide) (by decide) (by decide),
    by decide, by decide, by decide⟩

/-- C7 (amended): in every reachable state, two distinct active directory
entries can have equal stored names only when that name is exactly 31 bytes
long (the truncation width of the name field); stored names shorter than 31
bytes are unique among active entries. -/
theorem C7_amended (s : VFS) (h : Reach s) (i j : Nat) (hi : i < s.directory.length)
    (hj : j < s.directory.length) (hij : i ≠ j)
    (hni : (s.directory.getD i default).name ≠ [])
    (hnj : (s.directory.getD j default).name ≠ [])
    (heq : (s.directory.getD i default).name = (s.directory.getD j default).name) :
    (s.directory.getD i default).name.length = 31 :=
  (vfsInv_reach h).nameCol i j hi hj hij hni hnj heq

/-- Witness for C7 (amended): the two colliding entries of `exState2` indeed
carry a 31-byte stored name. -/
theorem C7_witness : (exState2.directory.getD 0 default).name.length = 31 :=
  C7_amended exState2
    (Reach.put exName2 [2] 0
      (Reach.put exName1 [1] 0 (Reach.create 8192 (by decide)) (by decide) (by decide)
        (by decide))
      (by decide) (by decide) (by decide))
    0 1 (by decide) (by decide) (by decide) (by decide) (by decide) (by decide)

/-- C9: `showMap` classifies every block index `0 .. totalBlocks-1` exactly
once (the classification is a function of the block) and reports exactly one
range per maximal run of consecutive identically classified blocks, in
ascending order, covering all blocks: the ranges tile `[0, totalBlocks)`, each
is homogeneous, and the block following each non-final range is classified
differently. -/
theorem C9_map_coalescing (s : VFS) (h : 1 ≤ s.sb.totalBlocks) :
    RangesOk (describeBlock s) s.sb.totalBlocks 0 (showMapRanges s) :=
  showMapRanges_ok s h

/-- Witness for C9: the specification's example — a volume where blocks 5-9
belong to one file and block 10 is free reports `[5,9] -> file` and
`[10,10] -> free` as single entries (six ranges in total for the 11 blocks,
not one per block). -/
theorem C9_witness :
    showMapRanges exMapState =
        [(0, 0, BlockClass.superblock), (1, 1, BlockClass.directoryBlock),
         (2, 2, BlockClass.fatBlock), (3, 4, BlockClass.freeBlock),
         (5, 9, BlockClass.fileBlock [97]), (10, 10, BlockClass.freeBlock)] ∧
      RangesOk (describeBlock exMapState) exMapState.sb.totalBlocks 0
        (showMapRanges exMapState) :=
  ⟨by decide, C9_map_coalescing exMapState (by decide)⟩

/-- Counterexample for C1: the round trip can fail even when `0 < L`, `L` fits
the free space, the name is fresh and the import succeeds.  In `exState1` the
stored name of the existing file is the 31-byte truncation of `exName1`;
bringing in the fresh name `exName2` (same 31-byte prefix) succeeds, but
exporting under the stored (truncated) name finds the *earlier* entry first
and reproduces the first file's bytes `[1]`, not the imported `[2]`. -/
theorem C1_counterexample :
    Reach exState1 ∧ exName2 ≠ [] ∧ findFreeSlot exState1.directory ≠ none ∧
      findDirectoryEntry exState1.directory exName2 = none ∧
      0 < ([2] : List Nat).length ∧
      ([2] : List Nat).length ≤
        BLOCK_SIZE * (freeBlockScan exState1.fat exState1.sb.dataStartBlock).length ∧
      (copyFromHost exState1 exName2 (some [2]) 0).2 = none ∧
      copyToHost exState2 (exName2.take 31) = some [1] ∧ ([1] : List Nat) ≠ [2] :=
  ⟨Reach.put exName1 [1] 0 (Reach.create 8192 (by decide)) (by decide) (by decide)
      (by decide),
    by decide, by decide, by decide, by decide, by decide, by decide, by decide, by decide⟩

/-- C1 (amended): the round trip holds once no *stored* name collides with the
truncated import name: for every reachable state with a free directory slot,
every byte sequence of length `L` with `0 < L` and `L` no larger than the free
space, and every nonempty base name whose 31-byte truncation differs from
every active stored name, importing and then exporting under the stored name
reproduces exactly the original `L` bytes. -/
theorem C1_roundtrip (s : VFS) (fname bytes : List Nat) (now : Int)
    (hreach : Reach s) (hn : fname ≠ [])
    (hslot : findFreeSlot s.directory ≠ none)
    (hfresh : ∀ i, i < s.directory.length → (s.directory.getD i default).name ≠ [] →
      (s.directory.getD i default).name ≠ fname.take 31)
    (hpos : 0 < bytes.length)
    (hspace : bytes.length ≤
      BLOCK_SIZE * (freeBlockScan s.fat s.sb.dataStartBlock).length) :
    ∃ s1, copyFromHost s fname (some bytes) now = (s1, none) ∧
      copyToHost s1 (fname.take 31) = some bytes := by
  have hB : BLOCK_SIZE = 512 := rfl
  have hinv := vfsInv_reach hreach
  have hfind : findDirectoryEntry s.directory fname = none := by
    cases hf : findDirectoryEntry s.directory fname with
    | none => rfl
    | some i =>
      obtain ⟨hi, hact, heq, -⟩ := findEntryIdx_some hf
      have hlen31 : (s.directory.getD i default).name.length ≤ 31 :=
        hinv.nameLen _ (getD_mem hi default)
      have htk : fname.take 31 = fname := by
        apply List.take_of_length_le
        rw [heq]
        exact hlen31
      exact absurd (heq.symm.trans htk.symm) (hfresh i hi hact)
  obtain ⟨slot, hslot'⟩ := Option.ne_none_iff_exists'.1 hslot
  obtain ⟨hslt, hsempty, hsmin⟩ := findSlotIdx_some hslot'
  have hz : bytes.length ≠ 0 := by omega
  have hsub : (freeBlockScan s.fat s.sb.dataStartBlock).Sublist
      (List.range s.fat.length) :=
    (List.filter_sublist _).trans (List.drop_sublist _ _)
  have hscanlen : (freeBlockScan s.fat s.sb.dataStartBlock).length ≤ s.fat.length := by
    have h1 := hsub.length_le
    simpa using h1
  have hscan : (bytes.length + BLOCK_SIZE - 1) / BLOCK_SIZE ≤
      (freeBlockScan s.fat s.sb.dataStartBlock).length := by
    rw [hB] at hspace ⊢
    omega
  have hlt : (bytes.length + BLOCK_SIZE - 1) / BLOCK_SIZE < 2 ^ 32 := by
    have h2 := hinv.fatLen
    have h3 := hinv.totalLt
    omega
  have hmod : ((bytes.length + BLOCK_SIZE - 1) / BLOCK_SIZE) % 2 ^ 32 =
      (bytes.length + BLOCK_SIZE - 1) / BLOCK_SIZE := Nat.mod_eq_of_lt hlt
  have hbl : (findFreeBlocks s.fat s.sb.dataStartBlock
      (((bytes.length + BLOCK_SIZE - 1) / BLOCK_SIZE) % 2 ^ 32)).length =
      ((bytes.length + BLOCK_SIZE - 1) / BLOCK_SIZE) % 2 ^ 32 := by
    rw [hmod]
    exact findFreeBlocks_length hscan
  refine ⟨_, copyFromHost_success hfind hslot' hz hbl, ?_⟩
  set needed := ((bytes.length + BLOCK_SIZE - 1) / BLOCK_SIZE) % 2 ^ 32 with hneeded
  set blocks := findFreeBlocks s.fat s.sb.dataStartBlock needed with hblocks
  set newEntry : DirEntry :=
    { name := fname.take 31, size := bytes.length, created := now, type := 70,
      firstBlock := blocks.headD 0 } with hnew
  have hnodup : blocks.Nodup := findFreeBlocks_nodup s.fat s.sb.dataStartBlock needed
  have hmemB : ∀ b ∈ blocks, b < s.fat.length := fun b hb => (findFreeBlocks_subset hb).2.1
  have hfind2 : findDirectoryEntry (s.directory.set slot newEntry) (fname.take 31) =
      some slot := by
    apply findEntryIdx_eq_some
    · rw [List.length_set]
      exact hslt
    · rw [getD_set_self hslt]
      exact ⟨take31_ne_nil hn, rfl⟩
    · intro j hj
      rw [getD_set_ne (show slot ≠ j by omega)]
      rintro ⟨hjact, hjeq⟩
      exact hfresh j (by omega) hjact hjeq.symm
  show copyToHost _ (fname.take 31) = some bytes
  unfold copyToHost
  rw [hfind2]
  dsimp only
  rw [getD_set_self hslt]
  show some (exportLoop (linkChain s.fat blocks) (writeData s.data blocks bytes)
    ((blocks.headD 0 : Nat) : Int) bytes.length bytes.length) = some bytes
  congr 1
  apply exportLoop_writeData
  · exact linkChain_linked hnodup hmemB
  · exact hnodup
  · intro b hb
    rw [linkChain_length]
    exact hmemB b hb
  · rw [hbl, hmod, hB]
    omega
  · rw [hbl, hmod, hB]
    omega
  · rw [hbl, hmod, hB]
    omega

set_option maxRecDepth 40000 in
/-- Witness for C1 (amended): importing a 1-byte file named `'a'` into a fresh
volume and exporting it reproduces the byte. -/
theorem C1_witness :
    ∃ s1, copyFromHost exDisk [97] (some [5]) 0 = (s1, none) ∧
      copyToHost s1 (([97] : List Nat).take 31) = some [5] :=
  C1_roundtrip exDisk [97] [5] 0 (Reach.create 8192 (by decide)) (by decide) (by decide)
    (by decide) (by decide) (by decide)
